import Mathlib

/-!
Verification of the website-analysis crawling/filtering/scraping core of the
repository (Python sources under `src/`), against its natural-language
specification.  Strings are modelled as `List Char`; URL parsing follows
CPython `urllib.parse` (`urlsplit` / `urlparse` / `urlunparse` / `urljoin`)
restricted to the behaviour those functions have on the inputs this code
feeds them; machine integers do not occur (Python ints are unbounded, modelled
by `Nat` / `Int`).  Fallible paths (Python exceptions) are modelled with
`Except`.
-/

/-! ## String primitives (Python `str` operations on ASCII text) -/

/-- The ASCII whitespace characters stripped by Python `str.strip()` and
matched by the regex class `\s` (for ASCII text): space, tab, newline,
carriage return, vertical tab, form feed. -/
def pyWsChar (c : Char) : Bool :=
  c = ' ' || c = '\t' || c = '\n' || c = '\r' || c = '\x0b' || c = '\x0c'

/-- Python `str.strip()`: drop leading and trailing whitespace. -/
def pyStrip (s : List Char) : List Char :=
  ((s.dropWhile pyWsChar).reverse.dropWhile pyWsChar).reverse

/-- Python `str.lower()` (ASCII). -/
def lowerL (s : List Char) : List Char := s.map Char.toLower

/-- Python `a in s` substring test (`s` contains `n` as a contiguous block). -/
def containsSub (n : List Char) : List Char → Bool
  | [] => n.isEmpty
  | c :: cs => n.isPrefixOf (c :: cs) || containsSub n cs

/-- Python `s.startswith(p)`. -/
def startsWithL (p s : List Char) : Bool := p.isPrefixOf s

/-- Python `s.endswith(p)`. -/
def endsWithL (p s : List Char) : Bool := p.isSuffixOf s

/-- Split at the first occurrence of `t`: Python `s.split(t, 1)` /
`s.find(t)`.  Returns the part before the first `t` and, when `t` occurs,
the part after it. -/
def splitFirst (t : Char) : List Char → List Char × Option (List Char)
  | [] => ([], none)
  | c :: cs =>
    if c = t then ([], some cs)
    else
      let r := splitFirst t cs
      (c :: r.1, r.2)

/-- Python `s.replace("www.", "")`: remove every (left-to-right,
non-overlapping) occurrence of `www.`. -/
def stripWwwAll : List Char → List Char
  | 'w' :: 'w' :: 'w' :: '.' :: rest => stripWwwAll rest
  | c :: rest => c :: stripWwwAll rest
  | [] => []

/-- Order-preserving deduplication keeping the first occurrence of each
element (Python `list(dict.fromkeys(xs))`, or a `seen` set). -/
def dedupKeepFirstAux {α : Type} [DecidableEq α] (seen : List α) : List α → List α
  | [] => []
  | a :: as =>
    if a ∈ seen then dedupKeepFirstAux seen as
    else a :: dedupKeepFirstAux (a :: seen) as

def dedupKeepFirst {α : Type} [DecidableEq α] (l : List α) : List α :=
  dedupKeepFirstAux [] l

/-- Order-preserving deduplication by a key function, keeping the first
element with each key (the `seen`-set loop in `discover_urls`). -/
def dedupByKeyAux {α β : Type} [DecidableEq β] (f : α → β) (seen : List β) : List α → List α
  | [] => []
  | a :: as =>
    if f a ∈ seen then dedupByKeyAux f seen as
    else a :: dedupByKeyAux f (f a :: seen) as

def dedupByKey {α β : Type} [DecidableEq β] (f : α → β) (l : List α) : List α :=
  dedupByKeyAux f [] l

/-! ## `urllib.parse` model (CPython `Lib/urllib/parse.py`)

Modelled exactly as CPython behaves on the inputs of this repository:
`urlsplit` first removes the "unsafe" bytes tab/CR/LF, then splits off a
scheme at the first `:` (if the part before it is a valid scheme), a netloc
after `//` (ended by the first `/`, `?` or `#`), then the fragment at the
first `#`, then the query at the first `?`; `urlparse` additionally splits
`;params` out of the last path segment. -/

/-- Characters CPython `urlsplit` deletes from the URL before parsing. -/
def unsafeUrlChar (c : Char) : Bool := c = '\t' || c = '\r' || c = '\n'

def removeUnsafe (s : List Char) : List Char := s.filter (fun c => !(unsafeUrlChar c))

/-- CPython scheme characters: ASCII letters, digits, `+`, `-`, `.`. -/
def schemeChar (c : Char) : Bool :=
  c.isAlpha || c.isDigit || c = '+' || c = '-' || c = '.'

/-- Scheme extraction of `urlsplit`: the text before the first `:` is a
scheme when it is nonempty, starts with a letter and has only scheme
characters; it is returned lowercased together with the remainder. -/
def splitScheme (s : List Char) : Option (List Char × List Char) :=
  match splitFirst ':' s with
  | (pre, some rest) =>
    if pre ≠ [] ∧ (pre.headD ' ').isAlpha ∧ pre.all schemeChar then
      some (lowerL pre, rest)
    else none
  | (_, none) => none

/-- A character ending the netloc in `urlsplit`. -/
def stopNetloc (c : Char) : Bool := c = '/' || c = '?' || c = '#'

structure SplitParts where
  scheme : List Char
  netloc : List Char
  path : List Char
  query : List Char
  fragment : List Char
deriving DecidableEq, Repr

/-- CPython `urlsplit(url)` (with `allow_fragments=True`). -/
def urlsplitM (s : List Char) : SplitParts :=
  let s := removeUnsafe s
  let p1 : List Char × List Char :=
    match splitScheme s with
    | some (sch, r) => (sch, r)
    | none => ([], s)
  let p2 : List Char × List Char :=
    match p1.2 with
    | '/' :: '/' :: r => (r.takeWhile (fun c => !(stopNetloc c)), r.dropWhile (fun c => !(stopNetloc c)))
    | _ => ([], p1.2)
  let p3 : List Char × List Char :=
    match splitFirst '#' p2.2 with
    | (a, some b) => (a, b)
    | (a, none) => (a, [])
  let p4 : List Char × List Char :=
    match splitFirst '?' p3.1 with
    | (a, some b) => (a, b)
    | (a, none) => (a, [])
  ⟨p1.1, p2.1, p4.1, p4.2, p3.2⟩

/-- The segment of a path after its last `/` (the whole path when it has
no `/`). -/
def lastSegment (p : List Char) : List Char :=
  (p.reverse.takeWhile (· ≠ '/')).reverse

/-- The part of a path up to and including its last `/` (empty when the
path has no `/`). -/
def beforeLastSegment (p : List Char) : List Char :=
  (p.reverse.dropWhile (· ≠ '/')).reverse

/-- CPython `_splitparams`: split `;params` out of the last path segment
(searching for `;` only from the last `/` on, when the path has a `/`). -/
def splitParams (p : List Char) : List Char × List Char :=
  if p.contains '/' then
    match splitFirst ';' (lastSegment p) with
    | (a, some b) => (beforeLastSegment p ++ a, b)
    | (_, none) => (p, [])
  else
    match splitFirst ';' p with
    | (a, some b) => (a, b)
    | (_, none) => (p, [])

structure ParseParts where
  scheme : List Char
  netloc : List Char
  path : List Char
  params : List Char
  query : List Char
  fragment : List Char
deriving DecidableEq, Repr

/-- CPython `urlparse(url)`: `urlsplit` plus params splitting (only tried
when the path contains a `;`). -/
def urlparseM (s : List Char) : ParseParts :=
  let sp := urlsplitM s
  let pp : List Char × List Char :=
    if sp.path.contains ';' then splitParams sp.path else (sp.path, [])
  ⟨sp.scheme, sp.netloc, pp.1, pp.2, sp.query, sp.fragment⟩

/-- CPython `urlunparse` (via `urlunsplit`): re-assemble the six
components. -/
def urlunparseM (p : ParseParts) : List Char :=
  let u := if p.params ≠ [] then p.path ++ ';' :: p.params else p.path
  let u :=
    if p.netloc ≠ [] ∨ u.take 2 = ['/', '/'] then
      '/' :: '/' :: (p.netloc ++ (if u ≠ [] ∧ u.head? ≠ some '/' then '/' :: u else u))
    else u
  let u := if p.scheme ≠ [] then p.scheme ++ ':' :: u else u
  let u := if p.query ≠ [] then u ++ '?' :: p.query else u
  if p.fragment ≠ [] then u ++ '#' :: p.fragment else u

/-! ## `core/utils.py` -/

/-- The dangerous schemes rejected by `safe_url` (`core/utils.py`). -/
def dangerous_schemes : List (List Char) :=
  ["javascript".toList, "data".toList, "file".toList, "ftp".toList]

/-- `core.utils.safe_url`: normalize and validate a URL.  `None` (here
`none`) is the "invalid" result.  Mirrors the source line by line: empty
check, strip, empty check, dangerous-scheme prefix test on the lowercased
text, `https://` prepended when the text does not start with `http://` or
`https://`, parse, netloc and scheme checks, `urlunparse` reassembly. -/
def safe_url (url : List Char) : Option (List Char) :=
  if url = [] then none
  else
    let url := pyStrip url
    if url = [] then none
    else if dangerous_schemes.any (fun sch => startsWithL (sch ++ [':']) (lowerL url)) then none
    else
      let url :=
        if startsWithL "http://".toList url || startsWithL "https://".toList url then url
        else "https://".toList ++ url
      let parsed := urlparseM url
      if parsed.netloc = [] then none
      else if parsed.scheme ≠ "http".toList ∧ parsed.scheme ≠ "https".toList then none
      else some (urlunparseM parsed)

/-- `core.utils.extract_domain`: the lowercased netloc of the URL (the
`except` branch of the source is unreachable in this model). -/
def extract_domain (url : List Char) : List Char := lowerL (urlparseM url).netloc

/-- `core.utils.is_same_domain`: equal domains after removing `www.`
occurrences; `False` when either domain is empty. -/
def is_same_domain (url1 url2 : List Char) : Bool :=
  let d1 := extract_domain url1
  let d2 := extract_domain url2
  if d1 = [] || d2 = [] then false
  else stripWwwAll d1 = stripWwwAll d2

/-! ## `core/config.py` defaults used by the claims -/

def FIRECRAWL_MAX_RETRIES : Nat := 3
def FIRECRAWL_CRAWL_POLL_INTERVAL : Nat := 2
def FIRECRAWL_CRAWL_MAX_WAIT : Nat := 300

/-- `settings.valuable_paths_list` (default `BI_VALUABLE_PATHS`). -/
def valuable_paths_list : List (List Char) :=
  ["about", "our-approach", "team", "leadership", "services", "solutions",
   "case-studies", "customers", "blog", "investors", "culture", "portfolio",
   "clients", "work", "projects"].map String.toList

/-- `settings.excluded_paths_list` (default `BI_EXCLUDED_PATHS`). -/
def excluded_paths_list : List (List Char) :=
  ["privacy", "terms", "cookie", "careers", "contact", "login", "signup",
   "register", "press-kit", "media-kit", "legal", "disclaimer",
   "accessibility", "sitemap"].map String.toList

/-! ## `features/website_analysis/filter.py` -/

/-- `re.search(r"/20\d{2}/", path)`: some position starts `/20dd/` with two
digits. -/
def matchYearSeg : List Char → Bool
  | '/' :: '2' :: '0' :: d1 :: d2 :: '/' :: rest =>
    (d1.isDigit && d2.isDigit) || matchYearSeg ('2' :: '0' :: d1 :: d2 :: '/' :: rest)
  | _ :: cs => matchYearSeg cs
  | [] => false

/-- `re.search(r"/page/\d+", path)`: `/page/` followed by at least one
digit. -/
def matchPageNum : List Char → Bool
  | [] => false
  | c :: cs =>
    ("/page/".toList.isPrefixOf (c :: cs) && (((c :: cs).drop 6).headD ' ').isDigit)
      || matchPageNum cs

/-- `X[-_]?Y` searched in a path: one of the three spellings occurs. -/
def containsDashOpt (pre post : List Char) (path : List Char) : Bool :=
  containsSub (pre ++ post) path || containsSub (pre ++ '-' :: post) path
    || containsSub (pre ++ '_' :: post) path

/-- The `high_value_patterns` table of `score_url_value`: each entry is the
regex (as a decision function on the path), its bonus and its reason tag;
only the first match applies. -/
def high_value_patterns : List ((List Char → Bool) × Int × List Char) :=
  [ (containsDashOpt "/about".toList "us".toList, 15, "about_us_page".toList),
    (containsDashOpt "/our".toList "team".toList, 15, "team_page".toList),
    (containsSub "/leadership".toList, 15, "leadership_page".toList),
    (containsDashOpt "/case".toList "stud".toList, 12, "case_studies".toList),
    (containsSub "/portfolio".toList, 12, "portfolio".toList),
    (containsSub "/service".toList, 10, "services".toList),
    (containsSub "/solution".toList, 10, "solutions".toList),
    (containsSub "/product".toList, 10, "products".toList),
    (containsSub "/customer".toList, 10, "customers".toList),
    (containsSub "/client".toList, 10, "clients".toList),
    (containsSub "/testimonial".toList, 8, "testimonials".toList),
    (containsSub "/mission".toList, 8, "mission".toList),
    (containsSub "/value".toList, 8, "values".toList),
    (containsSub "/culture".toList, 8, "culture".toList),
    (containsSub "/blog/".toList, 5, "blog_post".toList),
    (fun p => containsSub "/insight/".toList p || containsSub "/insights/".toList p,
      5, "insights".toList),
    (matchYearSeg, 3, "dated_content".toList) ]

/-- The `low_value_patterns` table of `score_url_value`: every match
applies, additively. -/
def low_value_patterns : List ((List Char → Bool) × Int × List Char) :=
  [ (containsSub "/tag/".toList, -5, "tag_page".toList),
    (containsSub "/category/".toList, -5, "category_page".toList),
    (matchPageNum, -5, "pagination".toList),
    (containsSub "/search".toList, -10, "search_page".toList),
    (containsSub "/login".toList, -10, "login_page".toList),
    (containsSub "/signup".toList, -10, "signup_page".toList),
    (containsSub "/register".toList, -10, "register_page".toList),
    (containsSub "/cart".toList, -10, "cart_page".toList),
    (containsSub "/checkout".toList, -10, "checkout_page".toList),
    (endsWithL ".pdf".toList, -3, "pdf_file".toList),
    (fun p => endsWithL ".jpg".toList p || endsWithL ".jpeg".toList p
      || endsWithL ".png".toList p || endsWithL ".gif".toList p
      || endsWithL ".svg".toList p, -10, "image_file".toList),
    (fun p => endsWithL ".css".toList p || endsWithL ".js".toList p,
      -20, "asset_file".toList),
    (containsSub "/wp-".toList, -5, "wordpress_internal".toList),
    (containsSub "/feed".toList, -10, "feed_url".toList),
    (containsSub "/rss".toList, -10, "rss_url".toList),
    (fun p => p.contains '#', -5, "has_fragment".toList),
    (fun p => p.contains '?', -2, "has_query_params".toList) ]

/-- The additive scoring rules of `score_url_value` applied after the
cross-domain short circuit (valuable keyword, excluded keywords, the two
pattern tables, depth, URL length, homepage bonus), returning the score and
the joined reason string. -/
def scoreRules (url path : List Char) : Int × List Char :=
  let a0 : Int × List (List Char) := (0, [])
  let a1 :=
    match valuable_paths_list.find? (fun v => containsSub v path) with
    | some v => (a0.1 + 10, a0.2 ++ ["contains_".toList ++ v])
    | none => a0
  let a2 := excluded_paths_list.foldl
    (fun acc e => if containsSub e path then (acc.1 - 10, acc.2 ++ ["excluded_".toList ++ e]) else acc) a1
  let a3 :=
    match high_value_patterns.find? (fun pr => pr.1 path) with
    | some pr => (a2.1 + pr.2.1, a2.2 ++ [pr.2.2])
    | none => a2
  let a4 := low_value_patterns.foldl
    (fun acc pr => if pr.1 path then (acc.1 + pr.2.1, acc.2 ++ [pr.2.2]) else acc) a3
  let depth := path.count '/'
  let a5 :=
    if depth > 4 then (a4.1 - 2, a4.2 ++ ["deep_url".toList])
    else if depth ≤ 2 then (a4.1 + 2, a4.2 ++ ["shallow_url".toList])
    else a4
  let a6 :=
    if url.length > 150 then (a5.1 - 3, a5.2 ++ ["very_long_url".toList])
    else if url.length < 50 then (a5.1 + 1, a5.2 ++ ["short_url".toList])
    else a5
  let a7 :=
    if path = "/".toList ∨ path = "/index".toList ∨ path = "/index.html".toList ∨ path = "/home".toList
    then (a6.1 + 5, a6.2 ++ ["homepage".toList])
    else a6
  (a7.1, if a7.2 = [] then "no_special_markers".toList else List.intercalate ", ".toList a7.2)

/-- `filter.score_url_value`: parse the lowercased URL, short-circuit to
`(-100, "different_domain")` when a (truthy) base URL has a different
domain, otherwise apply the additive rules to the path. -/
def score_url_value (url : List Char) (base_url : Option (List Char)) : Int × List Char :=
  let parsed := urlparseM (lowerL url)
  let path := lowerL parsed.path
  match base_url with
  | some b =>
    if b ≠ [] ∧ is_same_domain url b = false then (-100, "different_domain".toList)
    else scoreRules url path
  | none => scoreRules url path

/-- The comparison `list.sort(key=lambda x: x[1], reverse=True)` uses:
stable descending order on the score component. -/
def bi_le (a b : List Char × Int) : Bool := decide (b.2 ≤ a.2)

structure FilterResult where
  urls : List (List Char)
  reasons : List (List Char × List Char)
  statsInput : Nat
  statsOutput : Nat
  filteredOutSamples : List (List Char)
deriving DecidableEq, Repr

/-- `filter.filter_urls`: score every URL, sort descending by score
(Python's sort is stable; `List.mergeSort` with `bi_le` is the same stable
descending order), keep the strictly-positively-scored URLs among the top
`max_urls`, and report up to five positively scored URLs cut by the limit. -/
def filter_urls (urls : List (List Char)) (base_url : Option (List Char)) (max_urls : Nat) :
    FilterResult :=
  if urls = [] then ⟨[], [], 0, 0, []⟩
  else
    let scored_urls := urls.map (fun u => (u, (score_url_value u base_url).1))
    let sorted := scored_urls.mergeSort bi_le
    let kept := ((sorted.take max_urls).filter (fun p => decide (0 < p.2))).map Prod.fst
    let samples :=
      (((sorted.drop max_urls).filter (fun p => decide (0 < p.2))).map Prod.fst).take 5
    ⟨kept, kept.map (fun u => (u, (score_url_value u base_url).2)),
      urls.length, kept.length, samples⟩

/-! ## `core/clients/firecrawl.py`: circuit breaker state

`FirecrawlClient.__init__` sets `failure_count = 0`,
`last_failure_time = None`, `circuit_open = False`.  Timestamps are seconds
as integers; `datetime.now() - t > timedelta(seconds=60)` becomes
`now - t > 60`. -/

structure Breaker where
  failure_count : Nat
  last_failure_time : Option Int
  circuit_open : Bool
deriving DecidableEq, Repr

def Breaker.init : Breaker := ⟨0, none, false⟩

/-- `FirecrawlClient._record_success`. -/
def record_success (s : Breaker) : Breaker :=
  { s with failure_count := 0, circuit_open := false }

/-- `FirecrawlClient._record_failure` at time `now`. -/
def record_failure (s : Breaker) (now : Int) : Breaker :=
  let s := { s with failure_count := s.failure_count + 1, last_failure_time := some now }
  if 5 ≤ s.failure_count then { s with circuit_open := true } else s

/-- `FirecrawlClient._is_circuit_open` queried at time `now`; it also
mutates the state (auto-recovery after more than 60 seconds), so it returns
the answer together with the new state. -/
def is_circuit_open (s : Breaker) (now : Int) : Bool × Breaker :=
  if s.circuit_open = false then (false, s)
  else
    match s.last_failure_time with
    | some t =>
      if now - t > 60 then (false, { s with circuit_open := false, failure_count := 0 })
      else (true, s)
    | none => (true, s)

/-! ## `core/clients/firecrawl.py`: the retrying request, crawl and scrape

The HTTP transport is abstracted as a backend function giving the outcome
of each attempt; sleeping (rate limiter, backoff) has no observable effect
in this untimed request model and is not represented.  The second component
of each result counts the network requests actually issued. -/

inductive ExcKind where
  | timeoutExc
  | connectExc
  | otherExc
deriving DecidableEq, Repr

inductive AttemptOutcome (β : Type) where
  | resp (code : Nat) (body : β)
  | exc (k : ExcKind)

inductive ReqOutcome (β : Type) where
  | circuitOpen
  | response (code : Nat) (body : β)
  | raised (k : ExcKind)

/-- `httpx.Response.is_success`: 2xx. -/
def isSuccessCode (code : Nat) : Bool := 200 ≤ code && code < 300

/-- `FirecrawlClient._is_retryable_error` on a status code: 429 or 5xx. -/
def isRetryableStatus (code : Nat) : Bool := code = 429 || (500 ≤ code && code < 600)

/-- `FirecrawlClient._is_retryable_error` on an exception (the call sites
pass status 0): timeout and connection errors are retryable. -/
def isRetryableExc : ExcKind → Bool
  | .timeoutExc => true
  | .connectExc => true
  | .otherExc => false

/-- The `for attempt in range(max_retries + 1)` body of
`FirecrawlClient._make_request_with_retry`: 429 and retryable errors loop
while attempts remain, otherwise a 2xx records a success and any other
response records a failure; a non-retryable (or final) exception records a
failure and is raised. -/
def makeRequestLoop {β : Type} (maxRetries : Nat) (backend : Nat → AttemptOutcome β)
    (st : Breaker) (now : Int) (attempt : Nat) : ReqOutcome β × Nat × Breaker :=
  match backend attempt with
  | .resp code body =>
    if code = 429 ∧ attempt < maxRetries then
      let r := makeRequestLoop maxRetries backend st now (attempt + 1)
      (r.1, r.2.1 + 1, r.2.2)
    else if isSuccessCode code = false ∧ isRetryableStatus code = true ∧ attempt < maxRetries then
      let r := makeRequestLoop maxRetries backend st now (attempt + 1)
      (r.1, r.2.1 + 1, r.2.2)
    else if isSuccessCode code then (.response code body, 1, record_success st)
    else (.response code body, 1, record_failure st now)
  | .exc k =>
    if isRetryableExc k = true ∧ attempt < maxRetries then
      let r := makeRequestLoop maxRetries backend st now (attempt + 1)
      (r.1, r.2.1 + 1, r.2.2)
    else (.raised k, 1, record_failure st now)
termination_by maxRetries + 1 - attempt
decreasing_by all_goals omega

/-- `FirecrawlClient._make_request_with_retry`: fail fast (raising
`httpx.HTTPError("Circuit breaker is open")`, zero requests issued) when the
circuit is open, else run the retry loop. -/
def make_request_with_retry {β : Type} (maxRetries : Nat) (backend : Nat → AttemptOutcome β)
    (st : Breaker) (now : Int) : ReqOutcome β × Nat × Breaker :=
  let c := is_circuit_open st now
  if c.1 then (.circuitOpen, 0, c.2)
  else makeRequestLoop maxRetries backend c.2 now 0

/-- Python exceptions that escape a modelled function.  `importError` is
`ImportError: cannot import name 'get_human_readable_error' from
'core.utils'` -- that function is defined in `core.error_messages`, not in
`core.utils`, so every `from core.utils import get_human_readable_error`
raises.  `indexError` is a list `IndexError`. -/
inductive PyErr where
  | importError
  | indexError
deriving DecidableEq, Repr

structure ScrapedItem where
  url : List Char
  content : List Char
  status : String
deriving DecidableEq, Repr

/-- The dict returned by `FirecrawlClient.crawl` (and `_poll_crawl_job` /
`_parse_completed_crawl`); absent keys are `none` / `[]`. -/
structure CrawlResult where
  status : String
  reason : Option String := none
  urls : List (List Char) := []
  totalFound : Option Nat := none
  scrapedContent : List ScrapedItem := []
  humanReadableError : Option String := none
deriving DecidableEq, Repr

/-- One item of a completed crawl job's `data` list. -/
structure CrawlItem where
  metadataSourceURL : Option (List Char) := none
  urlField : Option (List Char) := none
  markdown : List Char := []
  html : List Char := []
deriving DecidableEq, Repr

/-- `FirecrawlClient._parse_completed_crawl`: keep items with an extractable
source URL (metadata `sourceURL` preferred, else the `url` field; empty
strings are falsy and skipped), pair each with its first nonempty content,
and respect the limit. -/
def parse_completed_crawl (data : List CrawlItem) (limit : Nat) : CrawlResult :=
  let pairs := data.filterMap (fun item =>
    let s := item.metadataSourceURL.getD []
    let s := if s = [] then item.urlField.getD [] else s
    if s ≠ [] then some (s, if item.markdown ≠ [] then item.markdown else item.html)
    else none)
  { status := "success",
    urls := (pairs.map Prod.fst).take limit,
    totalFound := some (pairs.map Prod.fst).length,
    scrapedContent :=
      (pairs.map (fun pr => ⟨pr.1, pr.2, if pr.2 ≠ [] then "success" else "no_content"⟩)).take limit }

/-- The outcome of one status poll of a crawl job, as classified by the
body of the `while` loop of `FirecrawlClient._poll_crawl_job`. -/
inductive PollResp where
  | httpFail
  | apiSuccessFalse
  | statusCompleted (data : List CrawlItem)
  | statusFailed
  | statusInProgress
  | statusUnknown
  | excDuringPoll
deriving Repr

structure PollOut where
  result : Except PyErr CrawlResult
  elapsed : Nat
  requests : Nat
deriving Repr

/-- The `while time.time() - start_time < max_wait` loop of
`FirecrawlClient._poll_crawl_job`.  Time advances by the poll interval on
every non-completed iteration (the `await asyncio.sleep(poll_interval)`
before `continue`; status requests are treated as instantaneous).  A
`completed` status returns the parsed result.  A `failed` status tries to
return a `crawl_failed` dict but first evaluates
`from core.utils import get_human_readable_error`, which raises
`ImportError`; the loop's blanket `except Exception` catches it, sleeps and
continues -- so a failed job behaves like a pending one.  All other
outcomes (non-2xx status check, `success: false` body, in-progress or
unknown status, request exception) sleep and continue.  When the deadline
is reached the code again evaluates the bad import before building the
`crawl_timeout` dict, so the poller raises `ImportError` instead of
returning it. -/
def pollCrawlJobLoop (backend : Nat → PollResp) (limit : Nat) (i elapsed : Nat) : PollOut :=
  if elapsed < FIRECRAWL_CRAWL_MAX_WAIT then
    match backend i with
    | .statusCompleted data => ⟨.ok (parse_completed_crawl data limit), elapsed, i + 1⟩
    | .statusFailed =>
      pollCrawlJobLoop backend limit (i + 1) (elapsed + FIRECRAWL_CRAWL_POLL_INTERVAL)
    | _ => pollCrawlJobLoop backend limit (i + 1) (elapsed + FIRECRAWL_CRAWL_POLL_INTERVAL)
  else ⟨.error .importError, elapsed, i⟩
termination_by FIRECRAWL_CRAWL_MAX_WAIT - elapsed
decreasing_by
  all_goals simp only [FIRECRAWL_CRAWL_MAX_WAIT, FIRECRAWL_CRAWL_POLL_INTERVAL] at *
  all_goals omega

/-- `FirecrawlClient._poll_crawl_job` for job `job_id` (the job id only
names the endpoint; the original URL would only appear in the unreachable
`crawl_failed` / timeout dicts). -/
def poll_crawl_job (backend : Nat → PollResp) (limit : Nat) : PollOut :=
  pollCrawlJobLoop backend limit 0 0

/-- The body of the crawl-start response: `{"success": ..., "id": ...}`. -/
structure StartBody where
  success : Bool
  idField : Option (List Char) := none
deriving DecidableEq, Repr

/-- `FirecrawlClient.crawl`.  Without an API key: the mock `skipped` dict
echoing the raw input URL, before any normalization, and with no request.
With a key: normalize (invalid URL is an error dict), start the crawl job
through the retrying request, then poll.  A circuit-open fast-failure and
every error-dict branch that looks up a human-readable message evaluate
`from core.utils import get_human_readable_error` and therefore raise
`ImportError` (the `success: false` and missing-id branches build their
dicts without that lookup and do return them). -/
def crawl (hasKey : Bool) (st : Breaker) (now : Int) (url : List Char)
    (startBackend : Nat → AttemptOutcome StartBody) (pollBackend : Nat → PollResp)
    (limit : Nat) : Except PyErr CrawlResult × Nat :=
  if hasKey = false then
    (.ok { status := "skipped", reason := some "no_api_key", urls := [url] }, 0)
  else
    match safe_url url with
    | none => (.ok { status := "error", reason := some "invalid_url", urls := [] }, 0)
    | some u =>
      match make_request_with_retry FIRECRAWL_MAX_RETRIES startBackend st now with
      | (.circuitOpen, n, _) => (.error .importError, n)
      | (.raised _, n, _) => (.error .importError, n)
      | (.response code body, n, _) =>
        if isSuccessCode code = false then (.error .importError, n)
        else if body.success = false then
          (.ok { status := "error", reason := some "api_failure", urls := [u],
                 humanReadableError := some "API request failed" }, n)
        else
          match body.idField with
          | none =>
            (.ok { status := "error", reason := some "no_job_id", urls := [u],
                   humanReadableError := some "Crawl job could not be started" }, n)
          | some _ =>
            let po := poll_crawl_job pollBackend limit
            match po.result with
            | .ok res => (.ok res, n + po.requests)
            | .error _ => (.error .importError, n + po.requests)

/-- The dicts produced along the scraping pipeline
(`FirecrawlClient.scrape`, `fallback_scrape`, and the processed records of
`scrape_urls`); absent keys are `none`. -/
structure ScrapeRec where
  status : String
  url : Option (List Char) := none
  content : Option (List Char) := none
  reason : Option String := none
  format : Option String := none
  method : Option String := none
  contentLength : Option Nat := none
  humanReadableError : Option String := none
deriving DecidableEq, Repr

/-- The body of a scrape response: `{"success": ..., "data": {...}}` with
the content under the format keys. -/
structure ScrapeBody where
  success : Bool
  markdown : List Char := []
  html : List Char := []
  text : List Char := []
deriving DecidableEq, Repr

/-- `FirecrawlClient.scrape`.  Without an API key: the mock `skipped` dict
with a placeholder content string built from the raw input URL.  With a
key: normalize (on failure the reassigned `url` is `None` in the error
dict), request, extract the content for the requested format.  As in
`crawl`, the circuit-open, raised-exception and non-2xx branches evaluate
the bad `get_human_readable_error` import and raise `ImportError`. -/
def scrape (hasKey : Bool) (st : Breaker) (now : Int) (url : List Char)
    (backend : Nat → AttemptOutcome ScrapeBody) (format : String) :
    Except PyErr ScrapeRec × Nat :=
  if hasKey = false then
    (.ok { status := "skipped", reason := some "no_api_key", url := some url,
           content := some ("[Content from ".toList ++ url ++ " would be scraped here]".toList) }, 0)
  else
    match safe_url url with
    | none =>
      (.ok { status := "error", reason := some "invalid_url", url := none,
             content := some [] }, 0)
    | some u =>
      match make_request_with_retry FIRECRAWL_MAX_RETRIES backend st now with
      | (.circuitOpen, n, _) => (.error .importError, n)
      | (.raised _, n, _) => (.error .importError, n)
      | (.response code body, n, _) =>
        if isSuccessCode code = false then (.error .importError, n)
        else if body.success = false then
          (.ok { status := "error", reason := some "api_failure", url := some u,
                 content := some [], humanReadableError := some "API request failed" }, n)
        else
          let content :=
            if format = "markdown" then body.markdown
            else if format = "html" then body.html
            else if format = "text" then body.text
            else if body.markdown ≠ [] then body.markdown
            else if body.html ≠ [] then body.html
            else body.text
          (.ok { status := "success", url := some u, content := some content,
                 format := some format }, n)

/-! ## `features/website_analysis/discover.py` -/

/-- `urllib.parse.urljoin` restricted to how `discover_urls_fallback` uses
it: the base is an origin `scheme://netloc` (empty path) and the reference
is empty (urljoin returns the base) or an absolute path (urljoin keeps the
base's scheme and netloc and takes the reference's path). -/
def urljoin_origin (base path : List Char) : List Char :=
  if path = [] then base else base ++ path

/-- The `common_paths` catalog of `discover_urls_fallback`. -/
def common_paths : List (List Char) :=
  ["", "/about", "/about-us", "/our-story", "/mission", "/team", "/leadership",
   "/our-team", "/services", "/solutions", "/products", "/what-we-do",
   "/case-studies", "/portfolio", "/our-work", "/clients", "/customers",
   "/testimonials", "/blog", "/news", "/insights", "/resources", "/contact",
   "/contact-us", "/careers", "/jobs", "/investors", "/investor-relations",
   "/press", "/media"].map String.toList

/-- The `.html` variants tried by `discover_urls_fallback`. -/
def html_paths : List (List Char) :=
  ["/index.html", "/about.html", "/services.html", "/contact.html"].map String.toList

structure DiscoverResult where
  status : String
  reason : Option String := none
  urls : List (List Char) := []
  totalFound : Option Nat := none
  method : Option String := none
  note : Option String := none
  domain : Option (List Char) := none
deriving DecidableEq, Repr

/-- `discover.discover_urls_fallback`: join the static path catalog (and the
`.html` variants) to the site's origin, deduplicate preserving order, and
mark the result with `method: "fallback_patterns"`.  Pure string work -- no
network I/O. -/
def discover_urls_fallback (website_url : List Char) : DiscoverResult :=
  let parsed := urlsplitM website_url
  let base := parsed.scheme ++ ':' :: '/' :: '/' :: parsed.netloc
  let discovered := (common_paths.map (urljoin_origin base))
    ++ (html_paths.map (urljoin_origin base))
  let discovered := dedupKeepFirst discovered
  { status := "success", urls := discovered, totalFound := some discovered.length,
    method := some "fallback_patterns",
    note := some "URLs generated from common patterns - not all may exist" }

/-- The `seen`-set normalization key of `discover_urls`:
`url.rstrip('/').split('#')[0]`. -/
def discoverDedupKey (u : List Char) : List Char :=
  (splitFirst '#' ((u.reverse.dropWhile (· = '/')).reverse)).1

/-- `discover.discover_urls`: normalize the input (invalid is an error
dict), call `firecrawl.crawl` (abstracted as `crawlF`, which also reports
its network-request count; an escaping exception is caught by the blanket
handler and turned into an error dict), dispatch on the crawl status --
`skipped` goes to the pattern fallback -- and on success keep same-domain
normalized URLs, deduplicated and truncated to `max_urls`. -/
def discover_urls (website_url : List Char)
    (crawlF : List Char → Except PyErr CrawlResult × Nat) (max_urls : Nat) :
    DiscoverResult × Nat :=
  match safe_url website_url with
  | none => ({ status := "error", reason := some "invalid_url" }, 0)
  | some w =>
    let base_domain := extract_domain w
    match crawlF w with
    | (.error _, n) => ({ status := "error", reason := some "exception", urls := [w] }, n)
    | (.ok cr, n) =>
      if cr.status = "skipped" then (discover_urls_fallback w, n)
      else if cr.status = "rate_limited" then
        ({ status := "rate_limited", reason := some (cr.reason.getD "rate_limit"),
           urls := [w] }, n)
      else if cr.status ≠ "success" then
        ({ status := cr.status, reason := some (cr.reason.getD "unknown"), urls := [w] }, n)
      else
        let filtered := (cr.urls.filterMap safe_url).filter (fun cu => is_same_domain cu w)
        let unique := dedupByKey discoverDedupKey filtered
        ({ status := "success", urls := unique.take max_urls,
           totalFound := some unique.length, domain := some base_domain }, n)

/-! ## `features/website_analysis/scrape.py` -/


/-- Collapse every maximal run of whitespace to a single space:
`re.sub(r"\s+", " ", text)`. -/
def collapseWsRuns : List Char → List Char
  | [] => []
  | c :: cs =>
    if pyWsChar c then ' ' :: collapseWsRuns (cs.dropWhile pyWsChar)
    else c :: collapseWsRuns cs
termination_by l => l.length
decreasing_by
  all_goals simp only [List.length_cons]
  · exact Nat.lt_succ_of_le (List.dropWhile_suffix _).length_le
  · exact Nat.lt_succ_self _

/-- The control characters removed by `clean_text`:
`re.sub(r"[\x00-\x1f\x7f-\x9f]", "", text)`. -/
def controlChar (c : Char) : Bool :=
  c.toNat ≤ 0x1f || (0x7f ≤ c.toNat && c.toNat ≤ 0x9f)

/-- `core.utils.clean_text`: collapse whitespace runs to single spaces,
remove control characters, strip. -/
def clean_text (s : List Char) : List Char :=
  pyStrip ((collapseWsRuns s).filter (fun c => !(controlChar c)))

/-- `re.sub(r"\n{3,}", "\n\n", content)`: runs of three or more newlines
become two. -/
def collapseNl3 : List Char → List Char
  | [] => []
  | c :: cs =>
    if c = '\n' then
      let run := 1 + (cs.takeWhile (· = '\n')).length
      (if 3 ≤ run then ['\n', '\n'] else List.replicate run '\n')
        ++ collapseNl3 (cs.dropWhile (· = '\n'))
    else c :: collapseNl3 cs
termination_by l => l.length
decreasing_by
  all_goals simp only [List.length_cons]
  · exact Nat.lt_succ_of_le (List.dropWhile_suffix _).length_le
  · exact Nat.lt_succ_self _

/-- `re.sub(r" {2,}", " ", content)`: every run of spaces becomes one
space (runs of length one are left unchanged, which is the same thing). -/
def collapseSp2 : List Char → List Char
  | [] => []
  | c :: cs =>
    if c = ' ' then ' ' :: collapseSp2 (cs.dropWhile (· = ' '))
    else c :: collapseSp2 cs
termination_by l => l.length
decreasing_by
  all_goals simp only [List.length_cons]
  · exact Nat.lt_succ_of_le (List.dropWhile_suffix _).length_le
  · exact Nat.lt_succ_self _

/-- `re.sub(r"\[([^\]]+)\]\(\)", r"\1", content)`: a bracketed nonempty
`]`-free text followed by `()` is replaced by the text; scanning resumes
after a match, otherwise one character ahead. -/
def fixEmptyLinks : List Char → List Char
  | [] => []
  | '[' :: cs =>
    (match h : cs.dropWhile (· ≠ ']') with
     | ']' :: rest =>
       let content := cs.takeWhile (· ≠ ']')
       if content ≠ [] ∧ rest.take 2 = ['(', ')'] then content ++ fixEmptyLinks (rest.drop 2)
       else '[' :: fixEmptyLinks cs
     | _ => '[' :: fixEmptyLinks cs)
  | c :: cs => c :: fixEmptyLinks cs
termination_by l => l.length
decreasing_by
  · have h1 : (cs.dropWhile (· ≠ ']')).length ≤ cs.length := (List.dropWhile_suffix _).length_le
    rw [h] at h1
    simp only [List.length_cons, List.length_drop] at *
    omega
  · simp only [List.length_cons]; exact Nat.lt_succ_self _
  · simp only [List.length_cons]; exact Nat.lt_succ_self _
  · simp only [List.length_cons]; exact Nat.lt_succ_self _

/-- A line consisting of one to six `#` followed only by whitespace
(`re.sub(r"^#{1,6}\s*$", "", ...)` viewed per line; in the `scrape_urls`
pipeline `clean_markdown` runs on `clean_text` output, which contains no
newlines, so the per-line view agrees with the `re.MULTILINE` search). -/
def isEmptyHeaderLine (l : List Char) : Bool :=
  let hs := l.takeWhile (· = '#')
  1 ≤ hs.length && hs.length ≤ 6 && (l.drop hs.length).all pyWsChar

/-- A line consisting of a single `*` or `-` followed only by whitespace
(`re.sub(r"^[\*\-]\s*$", "", ...)` per line, as above). -/
def isEmptyBulletLine (l : List Char) : Bool :=
  match l with
  | c :: rest => (c = '*' || c = '-') && rest.all pyWsChar
  | [] => false

/-- Greedily consume repetitions of `---+\n` (three or more dashes then a
newline), returning the number of repetitions and the remainder. -/
def hrReps (s : List Char) : Nat × List Char :=
  if 3 ≤ (s.takeWhile (· = '-')).length then
    match h : s.dropWhile (· = '-') with
    | '\n' :: rest =>
      let r := hrReps rest
      (r.1 + 1, r.2)
    | _ => (0, s)
  else (0, s)
termination_by s.length
decreasing_by
  have h1 : (s.dropWhile (· = '-')).length ≤ s.length := (List.dropWhile_suffix _).length_le
  rw [h] at h1
  simp only [List.length_cons] at h1
  omega

/-- Termination helper for `collapseHrs`: `hrReps` leaves its input
unchanged when it consumed no repetition. -/
theorem hrReps_zero_eq (s : List Char) : (hrReps s).1 = 0 → (hrReps s).2 = s := by
  rw [hrReps]
  split
  · split
    · intro h; simp at h
    · intro _; rfl
  · intro _; rfl

/-- Termination helper for `collapseHrs`: a consumed repetition makes the
remainder strictly shorter. -/
theorem hrReps_pos_lt : ∀ s : List Char, 1 ≤ (hrReps s).1 → (hrReps s).2.length < s.length := by
  intro s
  induction s using hrReps.induct with
  | case1 s hd rest h ih =>
    rw [hrReps, if_pos hd]
    split
    next rest2 heq =>
      rw [h] at heq
      injection heq with _ e
      subst e
      intro _
      show (hrReps rest).2.length < s.length
      have h1 : (s.dropWhile (· = '-')).length ≤ s.length := (List.dropWhile_suffix _).length_le
      rw [h] at h1
      simp only [List.length_cons] at h1
      by_cases hz : (hrReps rest).1 = 0
      · rw [hrReps_zero_eq rest hz]; omega
      · have := ih (by omega)
        omega
    next hne =>
      exact absurd h (hne rest)
  | case2 s hd h =>
    rw [hrReps, if_pos hd]
    split
    next rest2 heq => exact absurd heq (h rest2)
    next hne => intro hp; omega
  | case3 s hd =>
    rw [hrReps, if_neg hd]
    intro hp; omega

/-- `re.sub(r"(---+\n){2,}", "---\n", content)`: two or more consecutive
horizontal rules collapse to one. -/
def collapseHrs : List Char → List Char
  | [] => []
  | c :: cs =>
    if h : 2 ≤ (hrReps (c :: cs)).1 then
      '-' :: '-' :: '-' :: '\n' :: collapseHrs (hrReps (c :: cs)).2
    else c :: collapseHrs cs
termination_by l => l.length
decreasing_by
  · exact hrReps_pos_lt (c :: cs) (by omega)
  · simp only [List.length_cons]; exact Nat.lt_succ_self _

/-- `scrape.clean_markdown`: the chain of regex cleanups of the source, in
order, then right-strip every line and strip the result. -/
def clean_markdown (content : List Char) : List Char :=
  let c1 := collapseNl3 content
  let c2 := collapseSp2 c1
  let c3 := fixEmptyLinks c2
  let c4 := List.intercalate ['\n']
    ((c3.splitOn '\n').map (fun l => if isEmptyHeaderLine l then [] else l))
  let c5 := collapseHrs c4
  let c6 := List.intercalate ['\n']
    ((c5.splitOn '\n').map (fun l => if isEmptyBulletLine l then [] else l))
  let c7 := (c6.splitOn '\n').map (fun l => (l.reverse.dropWhile pyWsChar).reverse)
  pyStrip (List.intercalate ['\n'] c7)

/-- The trivial test domains of `is_simple_scrape_url`. -/
def simple_domains : List (List Char) :=
  ["example.com", "example.org", "example.net", "httpbin.org"].map String.toList

/-- `scrape.is_simple_scrape_url`: a URL suits the naive fallback fetch
when its netloc is one of the trivial test domains, or its path (lowercased
and stripped of surrounding slashes) is empty or a basic page name. -/
def is_simple_scrape_url (url : List Char) : Bool :=
  let parsed := urlparseM url
  if lowerL parsed.netloc ∈ simple_domains then true
  else
    let path := (((lowerL parsed.path).dropWhile (· = '/')).reverse.dropWhile (· = '/')).reverse
    path = [] || path = "index.html".toList || path = "about".toList
      || path = "contact".toList || path = "home".toList

structure ScrapeOut where
  results : List ScrapeRec
  statsTotal : Nat
  statsSuccess : Nat
  statsFailed : Nat
deriving DecidableEq, Repr

/-- The `all_failed_payment` test of `scrape_urls`: every result is an
`error` with reason `http_402`. -/
def all_failed_payment_check (results : List ScrapeRec) : Bool :=
  results.all (fun r => r.status = "error" && r.reason = some "http_402")

/-- The fallback pass of `scrape_urls` (`for i, url in enumerate(urls)`):
simple URLs are re-fetched through `fallback_scrape` (abstracted as the
`fallback` oracle -- it performs a live unauthenticated HTTP fetch plus
naive HTML conversion; on success its dict has `status: "success"` and
`method: "fallback_scraping"`, source lines 399-405), other URLs keep
`scrape_results[i]`, which raises `IndexError` when `i` is out of range. -/
def buildFallback (fallback : List Char → ScrapeRec) :
    List (List Char) → List ScrapeRec → Except PyErr (List ScrapeRec)
  | [], _ => .ok []
  | u :: us, results =>
    if is_simple_scrape_url u then do
      let rest ← buildFallback fallback us results.tail
      .ok (fallback u :: rest)
    else
      match results with
      | [] => .error .indexError
      | r :: rs => do
        let rest ← buildFallback fallback us rs
        .ok (r :: rest)

/-- One iteration of the result-processing loop of `scrape_urls` for input
URL `u` and raw result `r`.  The processed dict holds url, status and, for
a success, the cleaned content with its length and format -- the raw
result's other keys (in particular `method`) are not carried over.  A
failure keeps its reason and human-readable message; a failure without a
(truthy) `human_readable_error` evaluates
`from core.utils import get_human_readable_error`, which raises
`ImportError`. -/
def processOne (format : String) (u : List Char) (r : ScrapeRec) : Except PyErr ScrapeRec :=
  let pUrl := r.url.getD u
  if r.status = "success" then
    let content := r.content.getD []
    let content :=
      if content ≠ [] then
        if format = "markdown" then clean_markdown (clean_text content)
        else clean_text content
      else content
    .ok { status := r.status, url := some pUrl, content := some content,
          contentLength := some content.length, format := some (r.format.getD format) }
  else
    if (r.humanReadableError.getD "") ≠ "" then
      .ok { status := r.status, url := some pUrl, content := some [],
            reason := some (r.reason.getD "unknown_error"),
            humanReadableError := r.humanReadableError }
    else .error .importError

/-- The full processing loop (`for i, result in enumerate(scrape_results)`;
`urls[i]` falls back to `"unknown"` past the end). -/
def processAll (format : String) (urls : List (List Char)) :
    List ScrapeRec → Nat → Except PyErr (List ScrapeRec)
  | [], _ => .ok []
  | r :: rs, i => do
    let p ← processOne format (urls.getD i "unknown".toList) r
    let rest ← processAll format urls rs (i + 1)
    .ok (p :: rest)

/-- `scrape.scrape_urls`.  The primary Firecrawl batch result is a
parameter (`primaryOutcome`; the `except` branch that replaces an escaped
batch exception with per-URL `api_error` dicts is the `.error` case).  When
every result failed with `http_402` and some URL is simple, the simple URLs
are retried through the local fallback fetch; the results are then
processed into the returned dicts and counted.  (`success_rate`, a float,
is not modelled.) -/
def scrape_urls (urls : List (List Char)) (primaryOutcome : Except Unit (List ScrapeRec))
    (fallback : List Char → ScrapeRec) (format : String) : Except PyErr ScrapeOut :=
  if urls = [] then .ok ⟨[], 0, 0, 0⟩
  else
    let scrape_results :=
      match primaryOutcome with
      | .ok rs => rs
      | .error _ => urls.map (fun _ => { status := "error", reason := some "api_error" })
    let step : Except PyErr (List ScrapeRec) :=
      if all_failed_payment_check scrape_results ∧ urls.any is_simple_scrape_url then
        buildFallback fallback urls scrape_results
      else .ok scrape_results
    match step with
    | .error e => .error e
    | .ok results =>
      match processAll format urls results 0 with
      | .error e => .error e
      | .ok processed =>
        let succ := processed.countP (fun p => p.status = "success")
        .ok ⟨processed, urls.length, succ, processed.length - succ⟩

/-! ## Claim-side predicates -/

/-- The scheme of an input string in the RFC 3986 sense, read off the
stripped text: the (lowercased) scheme-shaped part before the first `:`. -/
def inputScheme (s : List Char) : Option (List Char) :=
  (splitScheme (pyStrip s)).map Prod.fst

/-- A valid absolute `http`/`https` URL, as in the specification's
idempotence property: it carries one of the two schemes literally, has a
nonempty host part, and (being a valid URL) contains no whitespace. -/
def validAbsHttpUrl (u : List Char) : Prop :=
  (startsWithL "http://".toList u = true ∨ startsWithL "https://".toList u = true)
  ∧ (urlsplitM u).netloc ≠ []
  ∧ ∀ c ∈ u, pyWsChar c = false

/-- The shape invariant of parse results of valid absolute `http(s)` URLs,
strong enough to make `urlparseM` a left inverse of `urlunparseM`. -/
instance (u : List Char) : Decidable (validAbsHttpUrl u) := by
  unfold validAbsHttpUrl
  infer_instance

structure GoodParts (p : ParseParts) : Prop where
  scheme_ok : p.scheme = "http".toList ∨ p.scheme = "https".toList
  netloc_ne : p.netloc ≠ []
  netloc_ok : ∀ c ∈ p.netloc, stopNetloc c = false
  path_head : p.path = [] ∨ p.path.head? = some '/'
  path_ok : ∀ c ∈ p.path, c ≠ '?' ∧ c ≠ '#'
  params_ok : ∀ c ∈ p.params, c ≠ '?' ∧ c ≠ '#' ∧ c ≠ '/'
  query_ok : ∀ c ∈ p.query, c ≠ '#'
  no_ws : ∀ c ∈ p.netloc ++ p.path ++ p.params ++ p.query ++ p.fragment, pyWsChar c = false
  lastseg : ∀ c ∈ lastSegment p.path, c ≠ ';'
  params_slash : p.params ≠ [] → p.path.contains '/' = true

/-! ## Helper lemmas on the string primitives -/

theorem splitFirst_some_spec {t : Char} :
    ∀ {s a b : List Char}, splitFirst t s = (a, some b) → s = a ++ t :: b ∧ ∀ c ∈ a, c ≠ t := by
  intro s
  induction s with
  | nil => intro a b h; simp [splitFirst] at h
  | cons c cs ih =>
    intro a b h
    rw [splitFirst] at h
    by_cases hc : c = t
    · rw [if_pos hc] at h
      obtain ⟨rfl, rfl⟩ : ([] : List Char) = a ∧ cs = b := by
        simpa [Prod.ext_iff] using h
      simp [hc]
    · rw [if_neg hc] at h
      obtain ⟨h1, h2⟩ : c :: (splitFirst t cs).1 = a ∧ (splitFirst t cs).2 = some b := by
        simpa [Prod.ext_iff] using h
      obtain ⟨ha, hb⟩ := ih (a := (splitFirst t cs).1) (b := b) (by rw [← h2])
      subst h1
      constructor
      · show c :: cs = c :: ((splitFirst t cs).1 ++ t :: b)
        exact congrArg (List.cons c) ha
      · intro d hd
        rcases List.mem_cons.mp hd with rfl | hd
        · exact hc
        · exact hb d hd

theorem splitFirst_none_spec {t : Char} :
    ∀ {s a : List Char}, splitFirst t s = (a, none) → a = s ∧ ∀ c ∈ s, c ≠ t := by
  intro s
  induction s with
  | nil =>
    intro a h
    simp only [splitFirst, Prod.mk.injEq] at h
    simp [h.1.symm]
  | cons c cs ih =>
    intro a h
    rw [splitFirst] at h
    by_cases hc : c = t
    · rw [if_pos hc] at h
      simp [Prod.ext_iff] at h
    · rw [if_neg hc] at h
      obtain ⟨h1, h2⟩ : c :: (splitFirst t cs).1 = a ∧ (splitFirst t cs).2 = none := by
        simpa [Prod.ext_iff] using h
      obtain ⟨ha, hb⟩ := ih (a := (splitFirst t cs).1) (by rw [← h2])
      subst h1
      constructor
      · simp [ha]
      · intro d hd
        rcases List.mem_cons.mp hd with rfl | hd
        · exact hc
        · exact hb d hd

theorem splitFirst_no {t : Char} :
    ∀ {s : List Char}, (∀ c ∈ s, c ≠ t) → splitFirst t s = (s, none) := by
  intro s
  induction s with
  | nil => intro _; rfl
  | cons c cs ih =>
    intro h
    rw [splitFirst, if_neg (h c (List.mem_cons_self c cs))]
    rw [ih (fun d hd => h d (List.mem_cons_of_mem c hd))]

theorem splitFirst_append {t : Char} {a b : List Char} (h : ∀ c ∈ a, c ≠ t) :
    splitFirst t (a ++ t :: b) = (a, some b) := by
  induction a with
  | nil => simp [splitFirst]
  | cons c cs ih =>
    rw [List.cons_append, splitFirst, if_neg (h c (List.mem_cons_self c cs))]
    rw [ih (fun d hd => h d (List.mem_cons_of_mem c hd))]

theorem takeWhile_append_all {P : Char → Bool} {a : List Char} (b : List Char)
    (h : ∀ c ∈ a, P c = true) : (a ++ b).takeWhile P = a ++ b.takeWhile P := by
  induction a with
  | nil => simp
  | cons c cs ih =>
    rw [List.cons_append, List.takeWhile_cons, if_pos (h c (List.mem_cons_self c cs))]
    rw [ih (fun d hd => h d (List.mem_cons_of_mem c hd)), List.cons_append]

theorem dropWhile_append_all {P : Char → Bool} {a : List Char} (b : List Char)
    (h : ∀ c ∈ a, P c = true) : (a ++ b).dropWhile P = b.dropWhile P := by
  induction a with
  | nil => simp
  | cons c cs ih =>
    rw [List.cons_append, List.dropWhile_cons, if_pos (h c (List.mem_cons_self c cs))]
    exact ih (fun d hd => h d (List.mem_cons_of_mem c hd))

theorem takeWhile_all_eq {P : Char → Bool} {a : List Char}
    (h : ∀ c ∈ a, P c = true) : a.takeWhile P = a := by
  have := takeWhile_append_all (P := P) (a := a) [] h
  simpa using this

theorem dropWhile_all_eq {P : Char → Bool} {a : List Char}
    (h : ∀ c ∈ a, P c = true) : a.dropWhile P = [] := by
  have := dropWhile_append_all (P := P) (a := a) [] h
  simpa using this

theorem takeWhile_cons_neg {P : Char → Bool} {c : Char} (cs : List Char)
    (h : P c = false) : (c :: cs).takeWhile P = [] := by
  simp [List.takeWhile_cons, h]

theorem dropWhile_cons_neg {P : Char → Bool} {c : Char} (cs : List Char)
    (h : P c = false) : (c :: cs).dropWhile P = c :: cs := by
  simp [List.dropWhile_cons, h]

theorem dropWhile_eq_self_of {P : Char → Bool} {s : List Char}
    (h : ∀ c ∈ s, P c = false) : s.dropWhile P = s := by
  cases s with
  | nil => rfl
  | cons c cs => exact dropWhile_cons_neg cs (h c (List.mem_cons_self c cs))

/-- `pyStrip` leaves a whitespace-free string unchanged. -/
theorem pyStrip_eq_self {s : List Char} (h : ∀ c ∈ s, pyWsChar c = false) :
    pyStrip s = s := by
  unfold pyStrip
  rw [dropWhile_eq_self_of h, dropWhile_eq_self_of, List.reverse_reverse]
  intro c hc
  exact h c (List.mem_reverse.mp hc)

/-- `removeUnsafe` leaves a whitespace-free string unchanged (the unsafe
characters are all whitespace). -/
theorem removeUnsafe_eq_self {s : List Char} (h : ∀ c ∈ s, pyWsChar c = false) :
    removeUnsafe s = s := by
  unfold removeUnsafe
  rw [List.filter_eq_self]
  intro c hc
  have := h c hc
  revert this
  unfold pyWsChar unsafeUrlChar
  rcases Decidable.em (c = '\t') with h1 | h1 <;> rcases Decidable.em (c = '\r') with h2 | h2 <;>
    rcases Decidable.em (c = '\n') with h3 | h3 <;> simp [h1, h2, h3]

/-! ## C9: dangerous schemes are rejected at normalization -/

/-- C9: for every input string whose scheme is one of `javascript`, `data`,
`file`, `ftp`, the normalizer `safe_url` returns the invalid result
(`none`), so such a URL never enters the pipeline. -/
theorem claim_C9 (s sch : List Char) (h1 : inputScheme s = some sch)
    (h2 : sch ∈ dangerous_schemes) : safe_url s = none := by
  unfold inputScheme at h1
  obtain ⟨⟨sch2, rest2⟩, hsp, hfst⟩ := Option.map_eq_some'.mp h1
  unfold splitScheme at hsp
  split at hsp
  case h_2 => exact absurd hsp (by simp)
  case h_1 pre rest heq =>
    split at hsp
    case isFalse => exact absurd hsp (by simp)
    case isTrue hcond =>
    obtain ⟨hpre, hrest⟩ : lowerL pre = sch2 ∧ rest = rest2 := by
      simpa using hsp
    simp only at hfst
    obtain ⟨hstrip, _⟩ := splitFirst_some_spec heq
    have hne : s ≠ [] := by
      intro hnil
      rw [hnil] at hstrip
      simp [pyStrip] at hstrip
    have hne2 : pyStrip s ≠ [] := by
      rw [hstrip]; simp
    have hlow : lowerL (pyStrip s) = sch ++ ':' :: lowerL rest := by
      rw [hstrip]
      unfold lowerL
      rw [List.map_append, List.map_cons]
      rw [show Char.toLower ':' = ':' from rfl]
      rw [show (List.map Char.toLower pre : List Char) = lowerL pre from rfl, hpre]
      rw [← hfst]
    have hdang : dangerous_schemes.any
        (fun d => startsWithL (d ++ [':']) (lowerL (pyStrip s))) = true := by
      rw [List.any_eq_true]
      refine ⟨sch, h2, ?_⟩
      rw [hlow]
      unfold startsWithL
      rw [List.isPrefixOf_iff_prefix, List.append_cons sch ':' (lowerL rest)]
      exact List.prefix_append _ _
    rw [safe_url, if_neg hne]
    simp only [hdang, if_neg hne2, if_true]

/-- Witness for C9 at the concrete input `javascript:alert(1)`. -/
theorem claim_C9_witness :
    inputScheme "javascript:alert(1)".toList = some "javascript".toList
    ∧ "javascript".toList ∈ dangerous_schemes
    ∧ safe_url "javascript:alert(1)".toList = none :=
  ⟨by decide, by decide,
    claim_C9 "javascript:alert(1)".toList "javascript".toList (by decide) (by decide)⟩

/-! ## C8: idempotence of `safe_url` -- component lemmas -/

theorem splitFirst_fst_ne {t : Char} (s : List Char) : ∀ c ∈ (splitFirst t s).1, c ≠ t := by
  rcases heq : splitFirst t s with ⟨a, o⟩
  cases o with
  | none => exact fun c hc => (splitFirst_none_spec heq).2 c (((splitFirst_none_spec heq).1) ▸ hc)
  | some b => exact (splitFirst_some_spec heq).2

theorem splitFirst_fst_front {t : Char} (s : List Char) : (splitFirst t s).1 <+: s := by
  rcases heq : splitFirst t s with ⟨a, o⟩
  cases o with
  | none => rw [(splitFirst_none_spec heq).1]
  | some b =>
    rw [(splitFirst_some_spec heq).1]
    exact List.prefix_append _ _

theorem splitFirst_fst_subset {t : Char} (s : List Char) :
    ∀ c ∈ (splitFirst t s).1, c ∈ s :=
  fun _ hc => (splitFirst_fst_front s).subset hc

theorem splitFirst_snd_subset {t : Char} (s b : List Char)
    (h : (splitFirst t s).2 = some b) : ∀ c ∈ b, c ∈ s := by
  rcases heq : splitFirst t s with ⟨a, o⟩
  rw [heq] at h
  simp only at h
  subst h
  intro c hc
  rw [(splitFirst_some_spec heq).1]
  exact List.mem_append.mpr (Or.inr (List.mem_cons_of_mem _ hc))

/-- When no element of `s` equals `t`, the second component is `none`. -/
theorem splitFirst_snd_none {t : Char} (s : List Char) (h : ∀ c ∈ s, c ≠ t) :
    (splitFirst t s).2 = none := by
  rw [splitFirst_no h]

theorem prefix_head_eq {a b : List Char} (h : a <+: b) (ha : a ≠ []) :
    a.head? = b.head? := by
  obtain ⟨c, rfl⟩ := h
  cases a with
  | nil => exact absurd rfl ha
  | cons x xs => rfl

/-- The head of `dropWhile P l`, when it exists, fails `P`. -/
theorem dropWhile_head_not {P : Char → Bool} (l : List Char) :
    l.dropWhile P = [] ∨ ∃ c cs, l.dropWhile P = c :: cs ∧ P c = false := by
  induction l with
  | nil => exact Or.inl rfl
  | cons x xs ih =>
    rw [List.dropWhile_cons]
    by_cases hx : P x = true
    · rw [if_pos hx]; exact ih
    · rw [if_neg hx]
      exact Or.inr ⟨x, xs, rfl, by revert hx; cases P x <;> simp⟩

/-- `lastSegment` has no `/`. -/
theorem lastSegment_no_slash (p : List Char) : ∀ c ∈ lastSegment p, c ≠ '/' := by
  intro c hc
  unfold lastSegment at hc
  have := List.mem_takeWhile_imp (List.mem_reverse.mp hc)
  simpa using this

theorem lastSegment_subset (p : List Char) : ∀ c ∈ lastSegment p, c ∈ p := by
  intro c hc
  unfold lastSegment at hc
  have := (List.takeWhile_prefix (l := p.reverse) (· ≠ '/')).subset (List.mem_reverse.mp hc)
  exact List.mem_reverse.mp (by simpa using this)

theorem beforeLast_append_lastSegment (p : List Char) :
    beforeLastSegment p ++ lastSegment p = p := by
  unfold beforeLastSegment lastSegment
  rw [← List.reverse_append, List.takeWhile_append_dropWhile, List.reverse_reverse]

/-- `lastSegment` of a path extended inside its last segment. -/
theorem lastSegment_append_no_slash (a b : List Char) (hb : ∀ c ∈ b, c ≠ '/') :
    lastSegment (a ++ b) = lastSegment a ++ b := by
  unfold lastSegment
  rw [List.reverse_append, takeWhile_append_all _ (by
    intro c hc
    simpa using hb c (List.mem_reverse.mp hc))]
  rw [List.reverse_append, List.reverse_reverse]

theorem beforeLastSegment_append_no_slash (a b : List Char) (hb : ∀ c ∈ b, c ≠ '/') :
    beforeLastSegment (a ++ b) = beforeLastSegment a := by
  unfold beforeLastSegment
  rw [List.reverse_append, dropWhile_append_all _ (by
    intro c hc
    simpa using hb c (List.mem_reverse.mp hc))]

/-- Computation of `urlsplitM` on an unsafe-free URL whose scheme split
yields a `//`-led remainder. -/
theorem urlsplitM_of (s sch v : List Char) (hru : removeUnsafe s = s)
    (hs : splitScheme s = some (sch, '/' :: '/' :: v)) :
    urlsplitM s =
      ⟨sch, v.takeWhile (fun c => !(stopNetloc c)),
        (splitFirst '?' (splitFirst '#' (v.dropWhile (fun c => !(stopNetloc c)))).1).1,
        ((splitFirst '?' (splitFirst '#' (v.dropWhile (fun c => !(stopNetloc c)))).1).2).getD [],
        ((splitFirst '#' (v.dropWhile (fun c => !(stopNetloc c)))).2).getD []⟩ := by
  simp only [urlsplitM, hru, hs]
  rcases h3 : splitFirst '#' (v.dropWhile (fun c => !(stopNetloc c))) with ⟨a3, o3⟩
  cases o3 with
  | none =>
    rcases h4 : splitFirst '?' a3 with ⟨a4, o4⟩
    cases o4 <;> simp [h3, h4]
  | some b3 =>
    rcases h4 : splitFirst '?' a3 with ⟨a4, o4⟩
    cases o4 <;> simp [h3, h4]

/-- Computation of `urlparseM` from `urlsplitM`. -/
theorem urlparseM_eq_split (s : List Char) :
    urlparseM s =
      ⟨(urlsplitM s).scheme, (urlsplitM s).netloc,
        (if (urlsplitM s).path.contains ';' then splitParams (urlsplitM s).path
         else ((urlsplitM s).path, [])).1,
        (if (urlsplitM s).path.contains ';' then splitParams (urlsplitM s).path
         else ((urlsplitM s).path, [])).2,
        (urlsplitM s).query, (urlsplitM s).fragment⟩ := rfl

theorem splitScheme_abs (sch v : List Char)
    (hsch : sch = "http".toList ∨ sch = "https".toList) :
    splitScheme (sch ++ ':' :: v) = some (sch, v) := by
  unfold splitScheme
  rw [splitFirst_append (by rcases hsch with rfl | rfl <;> decide)]
  show (if sch ≠ [] ∧ (sch.headD ' ').isAlpha ∧ sch.all schemeChar then
    some (lowerL sch, v) else none) = some (sch, v)
  rw [if_pos (by rcases hsch with rfl | rfl <;> exact ⟨by decide, by decide, by decide⟩)]
  rw [show lowerL sch = sch by rcases hsch with rfl | rfl <;> decide]

theorem valid_decomp (u : List Char) (hval : validAbsHttpUrl u) :
    ∃ sch v, (sch = "http".toList ∨ sch = "https".toList)
      ∧ u = sch ++ ':' :: '/' :: '/' :: v := by
  rcases hval.1 with h | h
  · obtain ⟨v, hv⟩ := List.isPrefixOf_iff_prefix.mp h
    exact ⟨"http".toList, v, Or.inl rfl, by rw [← hv]; rfl⟩
  · obtain ⟨v, hv⟩ := List.isPrefixOf_iff_prefix.mp h
    exact ⟨"https".toList, v, Or.inr rfl, by rw [← hv]; rfl⟩

theorem dropWhile_ne_nil_of_mem {P : Char → Bool} {l : List Char} {x : Char}
    (hx : x ∈ l) (hPx : P x = false) : l.dropWhile P ≠ [] := by
  induction l with
  | nil => cases hx
  | cons c cs ih =>
    rw [List.dropWhile_cons]
    rcases List.mem_cons.mp hx with rfl | hx2
    · rw [if_neg (by simp [hPx])]; simp
    · by_cases hc : P c = true
      · rw [if_pos hc]; exact ih hx2
      · rw [if_neg hc]; simp

theorem lastSegment_beforeLastSegment (p : List Char) :
    lastSegment (beforeLastSegment p) = [] := by
  unfold lastSegment beforeLastSegment
  rw [List.reverse_reverse]
  rcases dropWhile_head_not (P := (fun c => decide (c ≠ '/'))) p.reverse with h | ⟨c, cs, h, hc⟩
  · rw [h]; rfl
  · rw [h, takeWhile_cons_neg _ hc]
    rfl

/-- Subset lemma for the `getD []` of a `splitFirst` second component. -/
theorem splitFirst_getD_subset {t : Char} (s : List Char) :
    ∀ c ∈ ((splitFirst t s).2).getD [], c ∈ s := by
  rcases heq : splitFirst t s with ⟨a, o⟩
  cases o with
  | none => intro c hc; cases hc
  | some b =>
    intro c hc
    exact splitFirst_snd_subset s b (by rw [heq]) c hc

theorem parse_valid_good (u : List Char) (hval : validAbsHttpUrl u) :
    GoodParts (urlparseM u) := by
  obtain ⟨sch, v, hsch, huv⟩ := valid_decomp u hval
  have hws_u : ∀ c ∈ u, pyWsChar c = false := hval.2.2
  have hws_v : ∀ c ∈ v, pyWsChar c = false := by
    intro c hc
    exact hws_u c (by rw [huv]; exact List.mem_append.mpr (Or.inr (by simp [hc])))
  have hru : removeUnsafe u = u := removeUnsafe_eq_self hws_u
  have hss : splitScheme u = some (sch, '/' :: '/' :: v) := by
    rw [huv]; exact splitScheme_abs sch _ hsch
  have hsplit := urlsplitM_of u sch v hru hss
  set N := v.takeWhile (fun c => !(stopNetloc c)) with hN
  set rest := v.dropWhile (fun c => !(stopNetloc c)) with hrestdef
  set F1 := (splitFirst '#' rest).1 with hF1def
  set P0 := (splitFirst '?' F1).1 with hP0def
  set Q := ((splitFirst '?' F1).2).getD [] with hQdef
  set F := ((splitFirst '#' rest).2).getD [] with hFdef
  have hN_sub : ∀ c ∈ N, c ∈ v := by
    intro c hc; rw [hN] at hc; exact (List.takeWhile_prefix _).subset hc
  have hrest_sub : ∀ c ∈ rest, c ∈ v := by
    intro c hc; rw [hrestdef] at hc; exact (List.dropWhile_suffix _).subset hc
  have hF1_sub : ∀ c ∈ F1, c ∈ rest := by
    intro c hc; rw [hF1def] at hc; exact splitFirst_fst_subset rest c hc
  have hF1_ne : ∀ c ∈ F1, c ≠ '#' := by
    intro c hc; rw [hF1def] at hc; exact splitFirst_fst_ne rest c hc
  have hP0_sub : ∀ c ∈ P0, c ∈ F1 := by
    intro c hc; rw [hP0def] at hc; exact splitFirst_fst_subset F1 c hc
  have hP0_neQ : ∀ c ∈ P0, c ≠ '?' := by
    intro c hc; rw [hP0def] at hc; exact splitFirst_fst_ne F1 c hc
  have hP0_neH : ∀ c ∈ P0, c ≠ '#' := fun c hc => hF1_ne c (hP0_sub c hc)
  have hP0_v : ∀ c ∈ P0, c ∈ v := fun c hc => hrest_sub c (hF1_sub c (hP0_sub c hc))
  have hQ_sub : ∀ c ∈ Q, c ∈ F1 := by
    intro c hc; rw [hQdef] at hc; exact splitFirst_getD_subset F1 c hc
  have hF_sub : ∀ c ∈ F, c ∈ rest := by
    intro c hc; rw [hFdef] at hc; exact splitFirst_getD_subset rest c hc
  have hP0_prefix : P0 <+: rest := by
    rw [hP0def, hF1def]
    exact (splitFirst_fst_front F1).trans (splitFirst_fst_front rest)
  have hP0_head : P0 = [] ∨ P0.head? = some '/' := by
    by_cases hz : P0 = []
    · exact Or.inl hz
    · right
      have hhd := prefix_head_eq hP0_prefix hz
      rcases dropWhile_head_not (P := fun c => !(stopNetloc c)) v with hre | ⟨c, cs, hre, hc⟩
      · rw [← hrestdef] at hre
        rw [hre] at hP0_prefix
        exact absurd (List.prefix_nil.mp hP0_prefix) hz
      · rw [← hrestdef] at hre
        have hcs : stopNetloc c = true := by revert hc; cases stopNetloc c <;> simp
        have hcase : c = '/' ∨ c = '?' ∨ c = '#' := by
          revert hcs; unfold stopNetloc
          rcases Decidable.em (c = '/') with h1 | h1 <;>
            rcases Decidable.em (c = '?') with h2 | h2 <;>
              rcases Decidable.em (c = '#') with h3 | h3 <;> simp [h1, h2, h3]
        rw [hre] at hhd
        simp only [List.head?_cons] at hhd
        rcases hcase with rfl | rfl | rfl
        · exact hhd
        · exact absurd rfl (hP0_neQ '?' (List.mem_of_mem_head? (by rw [hhd]; simp)))
        · exact absurd rfl (hP0_neH '#' (List.mem_of_mem_head? (by rw [hhd]; simp)))
  have hparse : urlparseM u =
      ⟨sch, N, (if P0.contains ';' then splitParams P0 else (P0, [])).1,
        (if P0.contains ';' then splitParams P0 else (P0, [])).2, Q, F⟩ := by
    rw [urlparseM_eq_split, hsplit]
  have hnet_ne : N ≠ [] := by
    have := hval.2.1
    rw [hsplit] at this
    exact this
  have hnet_ok : ∀ c ∈ N, stopNetloc c = false := by
    intro c hc
    rw [hN] at hc
    have := List.mem_takeWhile_imp hc
    revert this; cases stopNetloc c <;> simp
  have hq_ok : ∀ c ∈ Q, c ≠ '#' := fun c hc => hF1_ne c (hQ_sub c hc)
  rw [hparse]
  by_cases hsemi : P0.contains ';' = true
  · -- params splitting is attempted
    have hsemi_mem : ';' ∈ P0 := by simpa using hsemi
    have hP0ne : P0 ≠ [] := by intro h; rw [h] at hsemi_mem; cases hsemi_mem
    have hP0head : P0.head? = some '/' := (hP0_head).resolve_left hP0ne
    have hslash_mem : '/' ∈ P0 := List.mem_of_mem_head? (by rw [hP0head]; simp)
    have hcsl : P0.contains '/' = true := by simpa using hslash_mem
    rw [if_pos hsemi]
    unfold splitParams
    rw [if_pos hcsl]
    rcases hsp2 : splitFirst ';' (lastSegment P0) with ⟨a, o⟩
    cases o with
    | none =>
      have hnone := splitFirst_none_spec hsp2
      exact {
        scheme_ok := hsch
        netloc_ne := hnet_ne
        netloc_ok := hnet_ok
        path_head := hP0_head
        path_ok := fun c hc => ⟨hP0_neQ c hc, hP0_neH c hc⟩
        params_ok := fun c hc => absurd hc (List.not_mem_nil c)
        query_ok := hq_ok
        no_ws := by
          intro c hc
          simp only [List.append_nil, List.mem_append] at hc
          rcases hc with ((hc | hc) | hc) | hc
          · exact hws_v c (hN_sub c hc)
          · exact hws_v c (hP0_v c hc)
          · exact hws_v c (hrest_sub c (hF1_sub c (hQ_sub c hc)))
          · exact hws_v c (hrest_sub c (hF_sub c hc))
        lastseg := fun c hc => hnone.2 c (hnone.1 ▸ hc)
        params_slash := fun h => absurd rfl h }
    | some b =>
      have hspec := splitFirst_some_spec hsp2
      have hbl_app := beforeLast_append_lastSegment P0
      have hbl_ne : beforeLastSegment P0 ≠ [] := by
        unfold beforeLastSegment
        intro h
        have h2 : P0.reverse.dropWhile (fun c => decide (c ≠ '/')) = [] := by
          have := congrArg List.reverse h
          simpa using this
        exact dropWhile_ne_nil_of_mem (List.mem_reverse.mpr hslash_mem) (by simp) h2
      have hbl_sub : ∀ c ∈ beforeLastSegment P0, c ∈ P0 := by
        intro c hc
        rw [← hbl_app]
        exact List.mem_append.mpr (Or.inl hc)
      have ha_seg : ∀ c ∈ a, c ∈ lastSegment P0 := by
        intro c hc
        rw [hspec.1]
        exact List.mem_append.mpr (Or.inl hc)
      have hb_seg : ∀ c ∈ b, c ∈ lastSegment P0 := by
        intro c hc
        rw [hspec.1]
        exact List.mem_append.mpr (Or.inr (List.mem_cons_of_mem _ hc))
      have ha_sub : ∀ c ∈ a, c ∈ P0 := fun c hc => lastSegment_subset P0 c (ha_seg c hc)
      have hb_sub : ∀ c ∈ b, c ∈ P0 := fun c hc => lastSegment_subset P0 c (hb_seg c hc)
      have ha_noslash : ∀ c ∈ a, c ≠ '/' := fun c hc => lastSegment_no_slash P0 c (ha_seg c hc)
      have hb_noslash : ∀ c ∈ b, c ≠ '/' := fun c hc => lastSegment_no_slash P0 c (hb_seg c hc)
      have hbl_prefix : beforeLastSegment P0 <+: P0 := ⟨lastSegment P0, hbl_app⟩
      exact {
        scheme_ok := hsch
        netloc_ne := hnet_ne
        netloc_ok := hnet_ok
        path_head := by
          right
          have h1 : (beforeLastSegment P0 ++ a).head? = (beforeLastSegment P0).head? := by
            cases hbm : beforeLastSegment P0 with
            | nil => exact absurd hbm hbl_ne
            | cons x xs => rfl
          rw [h1, prefix_head_eq hbl_prefix hbl_ne, hP0head]
        path_ok := by
          intro c hc
          rcases List.mem_append.mp hc with hc | hc
          · exact ⟨hP0_neQ c (hbl_sub c hc), hP0_neH c (hbl_sub c hc)⟩
          · exact ⟨hP0_neQ c (ha_sub c hc), hP0_neH c (ha_sub c hc)⟩
        params_ok := fun c hc =>
          ⟨hP0_neQ c (hb_sub c hc), hP0_neH c (hb_sub c hc), hb_noslash c hc⟩
        query_ok := hq_ok
        no_ws := by
          intro c hc
          rcases List.mem_append.mp hc with hc2 | hcF
          · rcases List.mem_append.mp hc2 with hc3 | hcQ
            · rcases List.mem_append.mp hc3 with hc4 | hcb
              · rcases List.mem_append.mp hc4 with hcN | hcP
                · exact hws_v c (hN_sub c hcN)
                · rcases List.mem_append.mp hcP with hcbl | hca
                  · exact hws_v c (hP0_v c (hbl_sub c hcbl))
                  · exact hws_v c (hP0_v c (ha_sub c hca))
              · exact hws_v c (hP0_v c (hb_sub c hcb))
            · exact hws_v c (hrest_sub c (hF1_sub c (hQ_sub c hcQ)))
          · exact hws_v c (hrest_sub c (hF_sub c hcF))
        lastseg := by
          intro c hc
          rw [lastSegment_append_no_slash _ _ ha_noslash, lastSegment_beforeLastSegment] at hc
          simp only [List.nil_append] at hc
          exact hspec.2 c hc
        params_slash := by
          intro hbne
          have : '/' ∈ beforeLastSegment P0 := by
            rcases List.mem_append.mp (hbl_app ▸ hslash_mem) with h | h
            · exact h
            · exact absurd rfl (lastSegment_no_slash P0 '/' h)
          simpa using List.mem_append.mpr (Or.inl this) }
  · -- no params splitting
    rw [if_neg hsemi]
    have hnosemi : ∀ c ∈ P0, c ≠ ';' := by
      intro c hc heq
      subst heq
      exact hsemi (by simpa using hc)
    exact {
      scheme_ok := hsch
      netloc_ne := hnet_ne
      netloc_ok := hnet_ok
      path_head := hP0_head
      path_ok := fun c hc => ⟨hP0_neQ c hc, hP0_neH c hc⟩
      params_ok := fun c hc => absurd hc (List.not_mem_nil c)
      query_ok := hq_ok
      no_ws := by
        intro c hc
        simp only [List.append_nil, List.mem_append] at hc
        rcases hc with ((hc | hc) | hc) | hc
        · exact hws_v c (hN_sub c hc)
        · exact hws_v c (hP0_v c hc)
        · exact hws_v c (hrest_sub c (hF1_sub c (hQ_sub c hc)))
        · exact hws_v c (hrest_sub c (hF_sub c hc))
      lastseg := fun c hc => hnosemi c (lastSegment_subset P0 c hc)
      params_slash := fun h => absurd rfl h }

theorem unparse_good (p : ParseParts) (hp : GoodParts p) :
    urlparseM (urlunparseM p) = p ∧ validAbsHttpUrl (urlunparseM p) := by
  obtain ⟨hsch, hnet_ne, hnet_ok, hpath_head, hpath_ok, hparams_ok, hquery_ok,
    hno_ws, hlastseg, hparams_slash⟩ := hp
  obtain ⟨ps, pn, pp, pr, pq, pf⟩ := p
  have hps : ps = "http".toList ∨ ps = "https".toList := hsch
  have hlast2 : ∀ c ∈ lastSegment pp, c ≠ ';' := hlastseg
  -- names for the assembled pieces
  set u1 := (if pr ≠ [] then pp ++ ';' :: pr else pp) with hu1def
  set qpart := (if pq ≠ [] then '?' :: pq else ([] : List Char)) with hqpartdef
  set fpart := (if pf ≠ [] then '#' :: pf else ([] : List Char)) with hfpartdef
  set tail := u1 ++ qpart ++ fpart with htaildef
  -- basic path facts
  have hpp_slash_of_pr : pr ≠ [] → pp ≠ [] ∧ pp.head? = some '/' := by
    intro hpr
    have hmem : '/' ∈ pp := by
      have := hparams_slash hpr
      simpa using this
    have hne : pp ≠ [] := by intro h; rw [h] at hmem; cases hmem
    exact ⟨hne, hpath_head.resolve_left hne⟩
  have hu1_head : u1 = [] ∨ u1.head? = some '/' := by
    rw [hu1def]
    by_cases hpr : pr ≠ []
    · rw [if_pos hpr]
      obtain ⟨hne, hhd⟩ := hpp_slash_of_pr hpr
      right
      cases pp with
      | nil => exact absurd rfl hne
      | cons x xs => simpa using hhd
    · rw [if_neg hpr]
      exact hpath_head
  have hu1_noq : ∀ c ∈ u1, c ≠ '?' := by
    rw [hu1def]
    by_cases hpr : pr ≠ []
    · rw [if_pos hpr]
      intro c hc
      rcases List.mem_append.mp hc with hc | hc
      · exact (hpath_ok c hc).1
      · rcases List.mem_cons.mp hc with rfl | hc
        · decide
        · exact (hparams_ok c hc).1
    · rw [if_neg hpr]
      exact fun c hc => (hpath_ok c hc).1
  have hu1_noh : ∀ c ∈ u1, c ≠ '#' := by
    rw [hu1def]
    by_cases hpr : pr ≠ []
    · rw [if_pos hpr]
      intro c hc
      rcases List.mem_append.mp hc with hc | hc
      · exact (hpath_ok c hc).2
      · rcases List.mem_cons.mp hc with rfl | hc
        · decide
        · exact (hparams_ok c hc).2.1
    · rw [if_neg hpr]
      exact fun c hc => (hpath_ok c hc).2
  have huq_noh : ∀ c ∈ u1 ++ qpart, c ≠ '#' := by
    intro c hc
    rcases List.mem_append.mp hc with hc | hc
    · exact hu1_noh c hc
    · rw [hqpartdef] at hc
      by_cases hpq2 : pq ≠ []
      · rw [if_pos hpq2] at hc
        rcases List.mem_cons.mp hc with rfl | hc
        · decide
        · exact hquery_ok c hc
      · rw [if_neg hpq2] at hc; cases hc
  -- the assembled URL
  have hinner_cond : ¬(u1 ≠ [] ∧ u1.head? ≠ some '/') := by
    rcases hu1_head with h | h
    · intro hcond; exact hcond.1 h
    · intro hcond; exact hcond.2 h
  have hT1cond : pn ≠ [] ∨ u1.take 2 = ['/', '/'] := Or.inl hnet_ne
  have hscond : ps ≠ [] := by rcases hps with rfl | rfl <;> decide
  have ho : urlunparseM ⟨ps, pn, pp, pr, pq, pf⟩ = ps ++ ':' :: '/' :: '/' :: (pn ++ tail) := by
    simp only [urlunparseM]
    rw [← hu1def]
    rw [if_neg hinner_cond, if_pos hT1cond, if_pos hscond]
    rw [htaildef, hqpartdef, hfpartdef]
    by_cases hpq2 : pq ≠ [] <;> by_cases hpf2 : pf ≠ [] <;>
      simp [hpq2, hpf2, List.append_assoc]
  -- whitespace freedom of the assembled URL
  have hws_o : ∀ c ∈ ps ++ ':' :: '/' :: '/' :: (pn ++ tail), pyWsChar c = false := by
    intro c hc
    have hcomp : ∀ d ∈ pn ++ pp ++ pr ++ pq ++ pf, pyWsChar d = false := hno_ws
    rcases List.mem_append.mp hc with hc | hc
    · have hh : ∀ d ∈ ps, pyWsChar d = false := by rcases hps with rfl | rfl <;> decide
      exact hh c hc
    · rcases List.mem_cons.mp hc with rfl | hc
      · decide
      rcases List.mem_cons.mp hc with rfl | hc
      · decide
      rcases List.mem_cons.mp hc with rfl | hc
      · decide
      rcases List.mem_append.mp hc with hc | hc
      · exact hcomp c (by simp [List.mem_append, hc])
      rw [htaildef] at hc
      rcases List.mem_append.mp hc with hc | hc
      · rcases List.mem_append.mp hc with hc | hc
        · rw [hu1def] at hc
          by_cases hpr : pr ≠ []
          · rw [if_pos hpr] at hc
            rcases List.mem_append.mp hc with hc | hc
            · exact hcomp c (by simp [List.mem_append, hc])
            · rcases List.mem_cons.mp hc with rfl | hc
              · decide
              · exact hcomp c (by simp [List.mem_append, hc])
          · rw [if_neg hpr] at hc
            exact hcomp c (by simp [List.mem_append, hc])
        · rw [hqpartdef] at hc
          by_cases hpq2 : pq ≠ []
          · rw [if_pos hpq2] at hc
            rcases List.mem_cons.mp hc with rfl | hc
            · decide
            · exact hcomp c (by simp [List.mem_append, hc])
          · rw [if_neg hpq2] at hc; cases hc
      · rw [hfpartdef] at hc
        by_cases hpf2 : pf ≠ []
        · rw [if_pos hpf2] at hc
          rcases List.mem_cons.mp hc with rfl | hc
          · decide
          · exact hcomp c (by simp [List.mem_append, hc])
        · rw [if_neg hpf2] at hc; cases hc
  -- parse the assembled URL
  have hsplit_o : urlsplitM (ps ++ ':' :: '/' :: '/' :: (pn ++ tail)) =
      ⟨ps, pn, u1, pq, pf⟩ := by
    have hof := urlsplitM_of (ps ++ ':' :: '/' :: '/' :: (pn ++ tail)) ps (pn ++ tail)
      (removeUnsafe_eq_self hws_o)
      (by
        have : ps ++ ':' :: '/' :: '/' :: (pn ++ tail)
            = ps ++ ':' :: ('/' :: '/' :: (pn ++ tail)) := rfl
        rw [this]
        exact splitScheme_abs ps _ hps)
    rw [hof]
    -- netloc and remainder
    have htail_shape : tail = [] ∨ ∃ c cs, tail = c :: cs ∧ stopNetloc c = true := by
      rw [htaildef]
      rcases hu1_head with h1 | h1
      · rw [h1, List.nil_append]
        rw [hqpartdef]
        by_cases hpq2 : pq ≠ []
        · rw [if_pos hpq2]
          exact Or.inr ⟨'?', pq ++ fpart, rfl, by decide⟩
        · rw [if_neg hpq2, List.nil_append]
          rw [hfpartdef]
          by_cases hpf2 : pf ≠ []
          · rw [if_pos hpf2]
            exact Or.inr ⟨'#', pf, rfl, by decide⟩
          · rw [if_neg hpf2]
            exact Or.inl rfl
      · cases hu : u1 with
        | nil => rw [hu] at h1; cases h1
        | cons x xs =>
          rw [hu] at h1
          simp only [List.head?_cons, Option.some.injEq] at h1
          subst h1
          exact Or.inr ⟨'/', xs ++ qpart ++ fpart, by simp, by decide⟩
    have htake : (pn ++ tail).takeWhile (fun c => !(stopNetloc c)) = pn := by
      rw [takeWhile_append_all tail (by
        intro c hc
        rw [hnet_ok c hc]; rfl)]
      rcases htail_shape with h | ⟨c, cs, h, hcstop⟩
      · rw [h]; simp
      · rw [h, takeWhile_cons_neg _ (by rw [hcstop]; rfl)]
        simp
    have hdrop : (pn ++ tail).dropWhile (fun c => !(stopNetloc c)) = tail := by
      rw [dropWhile_append_all tail (by
        intro c hc
        rw [hnet_ok c hc]; rfl)]
      rcases htail_shape with h | ⟨c, cs, h, hcstop⟩
      · rw [h]; rfl
      · rw [h, dropWhile_cons_neg _ (by rw [hcstop]; rfl)]
    rw [htake, hdrop]
    -- fragment split
    have hfsplit : (splitFirst '#' tail).1 = u1 ++ qpart
        ∧ ((splitFirst '#' tail).2).getD [] = pf := by
      rw [htaildef, hfpartdef]
      by_cases hpf2 : pf ≠ []
      · rw [if_pos hpf2]
        rw [splitFirst_append huq_noh]
        simp
      · rw [if_neg hpf2, List.append_nil]
        rw [splitFirst_no huq_noh]
        simp only [ne_eq, not_not] at hpf2
        rw [hpf2]
        exact ⟨rfl, rfl⟩
    -- query split
    have hqsplit : (splitFirst '?' (u1 ++ qpart)).1 = u1
        ∧ ((splitFirst '?' (u1 ++ qpart)).2).getD [] = pq := by
      rw [hqpartdef]
      by_cases hpq2 : pq ≠ []
      · rw [if_pos hpq2]
        rw [splitFirst_append hu1_noq]
        simp
      · rw [if_neg hpq2, List.append_nil]
        rw [splitFirst_no hu1_noq]
        simp only [ne_eq, not_not] at hpq2
        rw [hpq2]
        exact ⟨rfl, rfl⟩
    rw [hfsplit.1, hfsplit.2, hqsplit.1, hqsplit.2]
  -- the params split undoes the `;` join
  have hparams_step :
      (if u1.contains ';' then splitParams u1 else (u1, [])) = (pp, pr) := by
    rw [hu1def]
    by_cases hpr : pr ≠ []
    · rw [if_pos hpr]
      have hsemi_mem : ';' ∈ pp ++ ';' :: pr := List.mem_append.mpr (Or.inr (by simp))
      rw [if_pos (by simpa using hsemi_mem)]
      unfold splitParams
      have hslash_pp : '/' ∈ pp := by simpa using hparams_slash hpr
      have hnoslash_tail : ∀ c ∈ (';' :: pr), c ≠ '/' := by
        intro c hc
        rcases List.mem_cons.mp hc with rfl | hc
        · decide
        · exact (hparams_ok c hc).2.2
      have hcsl : (pp ++ ';' :: pr).contains '/' = true := by
        have : '/' ∈ pp ++ ';' :: pr := List.mem_append.mpr (Or.inl hslash_pp)
        simpa using this
      rw [if_pos hcsl]
      rw [lastSegment_append_no_slash pp (';' :: pr) hnoslash_tail]
      rw [splitFirst_append hlast2]
      show (beforeLastSegment (pp ++ ';' :: pr) ++ lastSegment pp, pr) = (pp, pr)
      rw [beforeLastSegment_append_no_slash pp (';' :: pr) hnoslash_tail]
      rw [beforeLast_append_lastSegment]
    · rw [if_neg hpr]
      simp only [ne_eq, not_not] at hpr
      subst hpr
      by_cases hsemi : pp.contains ';' = true
      · rw [if_pos hsemi]
        unfold splitParams
        have hsemi_mem : ';' ∈ pp := by simpa using hsemi
        have hppne : pp ≠ [] := by intro h; rw [h] at hsemi_mem; cases hsemi_mem
        have hhd : pp.head? = some '/' := hpath_head.resolve_left hppne
        have hslash : '/' ∈ pp := List.mem_of_mem_head? (by rw [hhd]; simp)
        rw [if_pos (by simpa using hslash)]
        rw [splitFirst_no hlast2]
      · rw [if_neg hsemi]
  -- put everything together
  constructor
  · rw [ho, urlparseM_eq_split, hsplit_o]
    simp only
    rw [hparams_step]
  · refine ⟨?_, ?_, ?_⟩
    · rw [ho]
      rcases hps with rfl | rfl
      · left
        show List.isPrefixOf "http://".toList
          ("http".toList ++ ':' :: '/' :: '/' :: (pn ++ tail)) = true
        rw [List.isPrefixOf_iff_prefix]
        exact ⟨pn ++ tail, rfl⟩
      · right
        show List.isPrefixOf "https://".toList
          ("https".toList ++ ':' :: '/' :: '/' :: (pn ++ tail)) = true
        rw [List.isPrefixOf_iff_prefix]
        exact ⟨pn ++ tail, rfl⟩
    · rw [ho, hsplit_o]
      exact hnet_ne
    · rw [ho]
      exact hws_o

theorem isPrefixOf_cons_ne {x y : Char} (xs ys : List Char) (hxy : x ≠ y) :
    List.isPrefixOf (x :: xs) (y :: ys) = false := by
  rw [Bool.eq_false_iff]
  intro h
  obtain ⟨t, ht⟩ := List.isPrefixOf_iff_prefix.mp h
  rw [List.cons_append] at ht
  exact hxy (List.head_eq_of_cons_eq ht)

theorem safe_url_valid (u : List Char) (hval : validAbsHttpUrl u) :
    safe_url u = some (urlunparseM (urlparseM u)) := by
  have hg := parse_valid_good u hval
  obtain ⟨sch, v, hps, huv⟩ := valid_decomp u hval
  have hws_u : ∀ c ∈ u, pyWsChar c = false := hval.2.2
  have hne : u ≠ [] := by rw [huv]; rcases hps with rfl | rfl <;> simp
  have hstripu : pyStrip u = u := pyStrip_eq_self hws_u
  have hdangf : dangerous_schemes.any
      (fun d => startsWithL (d ++ [':']) (lowerL u)) = false := by
    rw [List.any_eq_false]
    intro d hd
    rw [Bool.not_eq_true]
    rw [huv]
    rcases hps with rfl | rfl <;> fin_cases hd <;>
      exact isPrefixOf_cons_ne _ _ (by decide)
  have horr : (startsWithL "http://".toList u || startsWithL "https://".toList u) = true := by
    rcases hval.1 with h | h
    · rw [h, Bool.true_or]
    · rw [h, Bool.or_true]
  have hnet : ¬((urlparseM u).netloc = []) := hg.netloc_ne
  simp only [safe_url, hstripu, hdangf, horr]
  rw [if_neg hne]
  simp only [Bool.false_eq_true, if_false, if_true]
  rw [if_neg hne, if_neg hnet]
  rcases hg.scheme_ok with h | h <;> simp [h]

theorem safe_url_unparse (p : ParseParts) (hp : GoodParts p) :
    safe_url (urlunparseM p) = some (urlunparseM p) := by
  obtain ⟨hpu, hvo⟩ := unparse_good p hp
  have h := safe_url_valid _ hvo
  rw [hpu] at h
  exact h

/-- C8: `safe_url` is idempotent on valid absolute `http`/`https` URLs --
normalizing an already-normalized URL returns it unchanged. -/
theorem claim_C8 (u : List Char) (hval : validAbsHttpUrl u) :
    (safe_url u).bind safe_url = safe_url u := by
  rw [safe_url_valid u hval]
  show safe_url (urlunparseM (urlparseM u)) = some (urlunparseM (urlparseM u))
  exact safe_url_unparse (urlparseM u) (parse_valid_good u hval)

/-- Witness for C8 at a concrete URL with path, query and fragment. -/
theorem claim_C8_witness :
    validAbsHttpUrl "https://example.com/about?q=1#top".toList
    ∧ ((safe_url "https://example.com/about?q=1#top".toList).bind safe_url
        = safe_url "https://example.com/about?q=1#top".toList) :=
  ⟨by decide, claim_C8 "https://example.com/about?q=1#top".toList (by decide)⟩

/-! ## C5: cross-domain short circuit of the scorer -/

/-- C5: whenever the (truthy) base URL has a different domain, the scoring
function short-circuits to `(-100, "different_domain")` with no other rule
applied; in particular at the specification's concrete example. -/
theorem claim_C5 :
    (∀ url base : List Char, base ≠ [] → is_same_domain url base = false →
      score_url_value url (some base) = (-100, "different_domain".toList))
    ∧ score_url_value "https://other.com/about".toList (some "https://acme.com".toList)
        = (-100, "different_domain".toList) := by
  constructor
  · intro url base hb hd
    simp only [score_url_value]
    rw [if_pos ⟨hb, hd⟩]
  · decide

/-- Witness for C5 at the specification's example pair. -/
theorem claim_C5_witness :
    ("https://acme.com".toList ≠ ([] : List Char)
      ∧ is_same_domain "https://other.com/about".toList "https://acme.com".toList = false)
    ∧ score_url_value "https://other.com/about".toList (some "https://acme.com".toList)
        = (-100, "different_domain".toList) :=
  ⟨⟨by decide, by decide⟩,
    claim_C5.1 "https://other.com/about".toList "https://acme.com".toList
      (by decide) (by decide)⟩

/-! ## C4: the filter keeps at most K positively scored URLs in stable
descending score order -/

theorem bi_le_trans : ∀ a b c : List Char × Int,
    bi_le a b = true → bi_le b c = true → bi_le a c = true := by
  intro a b c
  simp only [bi_le, decide_eq_true_eq]
  omega

theorem bi_le_total : ∀ a b : List Char × Int, (bi_le a b || bi_le b a) = true := by
  intro a b
  simp only [bi_le, Bool.or_eq_true, decide_eq_true_eq]
  omega

theorem map_fst_filter_snd (f : List Char → Int) (s : Int) (l : List (List Char)) :
    ((l.map (fun u => (u, f u))).filter (fun p => decide (p.2 = s))).map Prod.fst
      = l.filter (fun u => decide (f u = s)) := by
  induction l with
  | nil => rfl
  | cons a t ih =>
      simp only [List.map_cons, List.filter_cons]
      by_cases h : f a = s
      · simp [h, ih]
      · simp [h, ih]

/-- C4: `filter_urls` returns at most `K` URLs, never one with score `≤ 0`,
in descending score order, and among URLs of equal score the kept ones
appear in input order (their sublist is a sublist of the input's). -/
theorem claim_C4 (urls : List (List Char)) (base : Option (List Char)) (K : Nat) :
    (filter_urls urls base K).urls.length ≤ K
    ∧ (∀ u ∈ (filter_urls urls base K).urls, 0 < (score_url_value u base).1)
    ∧ List.Pairwise (fun a b => (score_url_value b base).1 ≤ (score_url_value a base).1)
        (filter_urls urls base K).urls
    ∧ ∀ s : Int,
        List.Sublist
          ((filter_urls urls base K).urls.filter (fun u => decide ((score_url_value u base).1 = s)))
          (urls.filter (fun u => decide ((score_url_value u base).1 = s))) := by
  by_cases hnil : urls = []
  · subst hnil
    refine ⟨?_, ?_, ?_, ?_⟩ <;> simp [filter_urls]
  · have hres : (filter_urls urls base K).urls =
        (((urls.map (fun u => (u, (score_url_value u base).1))).mergeSort bi_le).take K
          |>.filter (fun p => decide (0 < p.2))).map Prod.fst := by
      simp only [filter_urls, if_neg hnil]
    set scored := urls.map (fun u => (u, (score_url_value u base).1)) with hscored
    set sorted := scored.mergeSort bi_le with hsortdef
    have hsnd : ∀ p ∈ sorted, p.2 = (score_url_value p.1 base).1 := by
      intro p hp
      have hp2 : p ∈ scored := ((List.mergeSort_perm scored bi_le).mem_iff).mp hp
      rw [hscored] at hp2
      obtain ⟨u, _, rfl⟩ := List.mem_map.mp hp2
      rfl
    have htake_sub : ∀ p ∈ sorted.take K, p ∈ sorted :=
      fun p hp => (List.take_sublist K sorted).subset hp
    refine ⟨?_, ?_, ?_, ?_⟩
    · rw [hres, List.length_map]
      calc (List.filter (fun p => decide (0 < p.2)) (List.take K sorted)).length
          ≤ (List.take K sorted).length := List.length_filter_le _ _
        _ ≤ K := by rw [List.length_take]; exact Nat.min_le_left _ _
    · rw [hres]
      intro u hu
      obtain ⟨p, hp, rfl⟩ := List.mem_map.mp hu
      obtain ⟨hpmem, hppos⟩ := List.mem_filter.mp hp
      have := hsnd p (htake_sub p hpmem)
      rw [← this]
      exact decide_eq_true_eq.mp hppos
    · rw [hres]
      have hPW : List.Pairwise (fun a b => bi_le a b = true) sorted :=
        List.sorted_mergeSort bi_le_trans bi_le_total scored
      have hPW2 : List.Pairwise (fun a b => bi_le a b = true)
          ((sorted.take K).filter (fun p => decide (0 < p.2))) :=
        List.Pairwise.sublist ((List.filter_sublist _).trans (List.take_sublist K sorted)) hPW
      rw [List.pairwise_map]
      refine hPW2.imp_of_mem ?_
      intro a b ha hb hle
      have hamem : a ∈ sorted := (((List.filter_sublist _).trans (List.take_sublist K sorted))).subset ha
      have hbmem : b ∈ sorted := (((List.filter_sublist _).trans (List.take_sublist K sorted))).subset hb
      have h1 := hsnd a hamem
      have h2 := hsnd b hbmem
      rw [← h1, ← h2]
      exact decide_eq_true_eq.mp hle
    · intro s
      rw [hres]
      rw [List.filter_map]
      have hcong : ((sorted.take K).filter (fun p => decide (0 < p.2))).filter
            ((fun u => decide ((score_url_value u base).1 = s)) ∘ Prod.fst)
          = (sorted.take K).filter (fun p => decide (p.2 = s) && decide (0 < p.2)) := by
        rw [List.filter_filter]
        refine List.filter_congr ?_
        intro p hp
        have := hsnd p (htake_sub p hp)
        show (decide ((score_url_value p.1 base).1 = s) && decide (0 < p.2))
          = (decide (p.2 = s) && decide (0 < p.2))
        rw [← this]
      rw [hcong]
      have hsub1 : List.Sublist ((sorted.take K).filter (fun p => decide (p.2 = s) && decide (0 < p.2)))
          (sorted.filter (fun p => decide (p.2 = s) && decide (0 < p.2))) :=
        (List.take_sublist K sorted).filter _
      have hstable : sorted.filter (fun p => decide (p.2 = s) && decide (0 < p.2))
          = scored.filter (fun p => decide (p.2 = s) && decide (0 < p.2)) := by
        have hties : List.Pairwise (fun a b => bi_le a b = true)
            (scored.filter (fun p => decide (p.2 = s) && decide (0 < p.2))) := by
          refine List.pairwise_of_forall_mem_list ?_
          intro a ha b hb
          have ha2 := (List.mem_filter.mp ha).2
          have hb2 := (List.mem_filter.mp hb).2
          simp only [Bool.and_eq_true, decide_eq_true_eq] at ha2 hb2
          simp only [bi_le, decide_eq_true_eq]
          omega
        have hsl : List.Sublist (scored.filter (fun p => decide (p.2 = s) && decide (0 < p.2))) sorted :=
          List.sublist_mergeSort bi_le_trans bi_le_total hties (List.filter_sublist scored)
        have hsl2 : List.Sublist (scored.filter (fun p => decide (p.2 = s) && decide (0 < p.2)))
            (sorted.filter (fun p => decide (p.2 = s) && decide (0 < p.2))) := by
          have := hsl.filter (fun p => decide (p.2 = s) && decide (0 < p.2))
          rw [List.filter_filter] at this
          simpa using this
        have hperm : (sorted.filter (fun p => decide (p.2 = s) && decide (0 < p.2))).Perm
            (scored.filter (fun p => decide (p.2 = s) && decide (0 < p.2))) :=
          (List.mergeSort_perm scored bi_le).filter _
        exact (hsl2.eq_of_length hperm.length_eq.symm).symm
      have hsub2 : List.Sublist (scored.filter (fun p => decide (p.2 = s) && decide (0 < p.2)))
          (scored.filter (fun p => decide (p.2 = s))) :=
        List.monotone_filter_right scored (by
          intro p hp
          simp only [Bool.and_eq_true] at hp
          exact hp.1)
      have hchain : List.Sublist ((sorted.take K).filter (fun p => decide (p.2 = s) && decide (0 < p.2)))
          (scored.filter (fun p => decide (p.2 = s))) := by
        refine hsub1.trans ?_
        rw [hstable]
        exact hsub2
      have hlast : (scored.filter (fun p => decide (p.2 = s))).map Prod.fst
          = urls.filter (fun u => decide ((score_url_value u base).1 = s)) := by
        rw [hscored]
        exact map_fst_filter_snd (fun u => (score_url_value u base).1) s urls
      rw [← hlast]
      exact hchain.map Prod.fst

/-! ## C2: five failures open the breaker, one success closes it -/

/-- C2: from a closed breaker with a zero failure streak, fewer than five
`_record_failure` calls leave the circuit closed, exactly five open it (and
`_is_circuit_open` reports it open at any time within 60 seconds of the
last failure), and a single `_record_success` resets the failure count to 0
and forces the circuit closed. -/
theorem claim_C2 :
    (∀ ts : List Int, ts.length < 5 →
      (ts.foldl record_failure Breaker.init).circuit_open = false ∧
      ∀ now : Int, (is_circuit_open (ts.foldl record_failure Breaker.init) now).1 = false) ∧
    (∀ ts : List Int, ts.length = 5 →
      (ts.foldl record_failure Breaker.init).circuit_open = true ∧
      (ts.foldl record_failure Breaker.init).failure_count = 5 ∧
      ∀ t5 : Int, ts.getLast? = some t5 → ∀ now : Int, now - t5 ≤ 60 →
        (is_circuit_open (ts.foldl record_failure Breaker.init) now).1 = true) ∧
    (∀ s : Breaker,
      (record_success s).failure_count = 0 ∧
      (record_success s).circuit_open = false ∧
      ∀ now : Int, (is_circuit_open (record_success s) now).1 = false) := by
  refine ⟨?_, ?_, ?_⟩
  · intro ts hlen
    rcases ts with _ | ⟨a, _ | ⟨b, _ | ⟨c, _ | ⟨d, _ | ⟨e, _ | ⟨f, rest⟩⟩⟩⟩⟩⟩
    · exact ⟨rfl, fun now => rfl⟩
    · exact ⟨rfl, fun now => rfl⟩
    · exact ⟨rfl, fun now => rfl⟩
    · exact ⟨rfl, fun now => rfl⟩
    · exact ⟨rfl, fun now => rfl⟩
    · simp at hlen
    · simp at hlen; omega
  · intro ts hlen
    rcases ts with _ | ⟨a, _ | ⟨b, _ | ⟨c, _ | ⟨d, _ | ⟨e, _ | ⟨f, rest⟩⟩⟩⟩⟩⟩
    · simp at hlen
    · simp at hlen
    · simp at hlen
    · simp at hlen
    · simp at hlen
    · refine ⟨rfl, rfl, ?_⟩
      intro t5 ht5 now hnow
      have he : some e = some t5 := ht5
      injection he with he
      subst he
      have h2 : ¬ (now - e > 60) := by omega
      show (is_circuit_open ⟨5, some e, true⟩ now).1 = true
      simp [is_circuit_open, h2]
    · simp at hlen
  · intro s
    exact ⟨rfl, rfl, fun now => rfl⟩

/-- Witness for C2: four failures leave the breaker closed, a fifth opens
it (still open 50 seconds later), and a success resets it. -/
theorem claim_C2_witness :
    ((is_circuit_open (([10, 20, 30, 40] : List Int).foldl record_failure Breaker.init) 100).1
        = false) ∧
    ((is_circuit_open (([10, 20, 30, 40, 50] : List Int).foldl record_failure Breaker.init) 100).1
        = true) ∧
    (record_success ⟨5, some 50, true⟩).failure_count = 0 ∧
    (record_success ⟨5, some 50, true⟩).circuit_open = false := by
  refine ⟨?_, ?_, ?_, ?_⟩
  · exact (claim_C2.1 [10, 20, 30, 40] (by decide)).2 100
  · exact (claim_C2.2.1 [10, 20, 30, 40, 50] (by decide)).2.2 50 rfl 100 (by decide)
  · exact (claim_C2.2.2 ⟨5, some 50, true⟩).1
  · exact (claim_C2.2.2 ⟨5, some 50, true⟩).2.1

/-! ## C3: an open circuit fails the call at once, with no request -/

/-- C3: with the circuit open (as after five recorded failures, queried
within the 60-second cool-down), `crawl` on a key-bearing client fails
immediately and issues zero network requests -- but, because the
circuit-open handler evaluates the broken
`from core.utils import get_human_readable_error`, the call raises
`ImportError` instead of returning the `status: "circuit_open"` dict that
the code intends (and that the repository's own
`test_circuit_breaker_functionality` asserts). -/
theorem claim_C3 (s : Breaker) (now : Int) (url u : List Char)
    (sb : Nat → AttemptOutcome StartBody) (pb : Nat → PollResp) (limit : Nat)
    (hopen : (is_circuit_open s now).1 = true) (hurl : safe_url url = some u) :
    crawl true s now url sb pb limit = (Except.error PyErr.importError, 0) := by
  simp [crawl, make_request_with_retry, hurl, hopen]

/-- Witness for C3: a breaker opened by five failures at time 0, queried at
time 30, fails a crawl of `https://example.com` with `ImportError` and zero
requests. -/
theorem claim_C3_witness :
    ((is_circuit_open (([0, 0, 0, 0, 0] : List Int).foldl record_failure Breaker.init) 30).1
        = true) ∧
    safe_url "https://example.com".toList = some "https://example.com".toList ∧
    crawl true (([0, 0, 0, 0, 0] : List Int).foldl record_failure Breaker.init) 30
        "https://example.com".toList (fun _ => AttemptOutcome.exc ExcKind.otherExc)
        (fun _ => PollResp.statusInProgress) 50
      = (Except.error PyErr.importError, 0) :=
  ⟨by decide, by decide,
    claim_C3 (([0, 0, 0, 0, 0] : List Int).foldl record_failure Breaker.init) 30
      "https://example.com".toList "https://example.com".toList
      (fun _ => AttemptOutcome.exc ExcKind.otherExc) (fun _ => PollResp.statusInProgress) 50
      (by decide) (by decide)⟩

/-! ## C1: the poller terminates at the deadline, but raising -/

/-- The poll loop never reports an elapsed time beyond the deadline when
started with `2 * n` seconds of budget remaining. -/
theorem pollLoop_elapsed (backend : Nat → PollResp) (limit : Nat) :
    ∀ n i elapsed, elapsed + 2 * n = 300 →
      (pollCrawlJobLoop backend limit i elapsed).elapsed ≤ 300 := by
  intro n
  induction n with
  | zero =>
    intro i elapsed h
    have he : elapsed = 300 := by omega
    subst he
    rw [pollCrawlJobLoop, if_neg (by decide)]
  | succ n ih =>
    intro i elapsed h
    have hlt : elapsed < FIRECRAWL_CRAWL_MAX_WAIT := by
      simp only [FIRECRAWL_CRAWL_MAX_WAIT]; omega
    rw [pollCrawlJobLoop, if_pos hlt]
    cases hb : backend i
    case statusCompleted data =>
      show elapsed ≤ 300
      omega
    all_goals {
      show (pollCrawlJobLoop backend limit (i + 1)
        (elapsed + FIRECRAWL_CRAWL_POLL_INTERVAL)).elapsed ≤ 300
      exact ih (i + 1) (elapsed + FIRECRAWL_CRAWL_POLL_INTERVAL)
        (by simp only [FIRECRAWL_CRAWL_POLL_INTERVAL]; omega) }

/-- Against a backend that never reports `completed`, the poll loop runs
its deadline down and exits through the timeout branch, whose broken
`get_human_readable_error` lookup raises `ImportError`. -/
theorem pollLoop_stuck (backend : Nat → PollResp) (limit : Nat)
    (hne : ∀ i data, backend i ≠ PollResp.statusCompleted data) :
    ∀ n i elapsed, elapsed + 2 * n = 300 →
      pollCrawlJobLoop backend limit i elapsed
        = ⟨Except.error PyErr.importError, 300, i + n⟩ := by
  intro n
  induction n with
  | zero =>
    intro i elapsed h
    have he : elapsed = 300 := by omega
    subst he
    rw [pollCrawlJobLoop, if_neg (by decide)]
    congr 1
  | succ n ih =>
    intro i elapsed h
    have hlt : elapsed < FIRECRAWL_CRAWL_MAX_WAIT := by
      simp only [FIRECRAWL_CRAWL_MAX_WAIT]; omega
    rw [pollCrawlJobLoop, if_pos hlt]
    cases hb : backend i
    case statusCompleted data => exact absurd hb (hne i data)
    all_goals {
      show pollCrawlJobLoop backend limit (i + 1) (elapsed + FIRECRAWL_CRAWL_POLL_INTERVAL) = _
      rw [ih (i + 1) (elapsed + FIRECRAWL_CRAWL_POLL_INTERVAL)
        (by simp only [FIRECRAWL_CRAWL_POLL_INTERVAL]; omega)]
      congr 1
      omega }

/-- C1: for every backend behavior, `_poll_crawl_job` terminates with its
elapsed sleeping time within `max_wait` (the loop is bounded); but against
a backend that never reports a `completed` crawl -- including one whose
every poll reports a `failed` job, since the failed branch's broken import
is swallowed by the blanket handler -- the deadline exit evaluates
`from core.utils import get_human_readable_error` and raises `ImportError`
instead of returning the intended
`{"status": "timeout", "reason": "crawl_timeout"}` dict. -/
theorem claim_C1 :
    (∀ backend : Nat → PollResp, ∀ limit : Nat,
      (poll_crawl_job backend limit).elapsed ≤ FIRECRAWL_CRAWL_MAX_WAIT) ∧
    (∀ backend : Nat → PollResp, ∀ limit : Nat,
      (∀ i data, backend i ≠ PollResp.statusCompleted data) →
      poll_crawl_job backend limit
        = ⟨Except.error PyErr.importError, FIRECRAWL_CRAWL_MAX_WAIT, 150⟩) := by
  constructor
  · intro backend limit
    show (pollCrawlJobLoop backend limit 0 0).elapsed ≤ 300
    exact pollLoop_elapsed backend limit 150 0 0 (by decide)
  · intro backend limit hne
    show pollCrawlJobLoop backend limit 0 0 = _
    have h := pollLoop_stuck backend limit hne 150 0 0 (by decide)
    simpa using h

/-- Witness for C1: polling a job that is forever `in progress` ends at the
300-second deadline with the `ImportError` (after 150 status requests). -/
theorem claim_C1_witness :
    poll_crawl_job (fun _ => PollResp.statusInProgress) 50
      = ⟨Except.error PyErr.importError, FIRECRAWL_CRAWL_MAX_WAIT, 150⟩ :=
  claim_C1.2 (fun _ => PollResp.statusInProgress) 50
    (fun _ _ h => PollResp.noConfusion h)

/-! ## C10: without an API key, crawl and scrape echo the raw URL -/

/-- C10: with no API key configured, `crawl` returns the `skipped` /
`no_api_key` dict echoing the raw input URL unchanged -- whatever that
input is (empty, malformed or dangerous-scheme alike: no normalization or
scheme check runs) -- and issues no network request; `scrape` likewise
returns the raw URL inside its placeholder content string, with no
request. -/
theorem claim_C10 (url : List Char) (st : Breaker) (now : Int)
    (sb : Nat → AttemptOutcome StartBody) (pb : Nat → PollResp) (limit : Nat)
    (scb : Nat → AttemptOutcome ScrapeBody) (fmt : String) :
    crawl false st now url sb pb limit
      = (Except.ok { status := "skipped", reason := some "no_api_key", urls := [url] }, 0) ∧
    scrape false st now url scb fmt
      = (Except.ok { status := "skipped", reason := some "no_api_key", url := some url,
                     content := some ("[Content from ".toList ++ url
                       ++ " would be scraped here]".toList) },
         0) :=
  ⟨rfl, rfl⟩

/-! ## C7: keyless discovery falls back to the pattern catalog -/

/-- C7: discovering URLs for `https://example.com` against the keyless
crawl client succeeds through the pattern fallback: the result is a
`success` carrying `method: "fallback_patterns"`, its URL list contains
`/about`, `/team` and `/services`, and zero network requests are made. -/
theorem claim_C7 :
    (discover_urls "https://example.com".toList
        (fun w => crawl false Breaker.init 0 w (fun _ => AttemptOutcome.exc ExcKind.otherExc)
          (fun _ => PollResp.statusInProgress) 50) 50).1.status = "success" ∧
    (discover_urls "https://example.com".toList
        (fun w => crawl false Breaker.init 0 w (fun _ => AttemptOutcome.exc ExcKind.otherExc)
          (fun _ => PollResp.statusInProgress) 50) 50).1.method = some "fallback_patterns" ∧
    "https://example.com/about".toList ∈
      (discover_urls "https://example.com".toList
        (fun w => crawl false Breaker.init 0 w (fun _ => AttemptOutcome.exc ExcKind.otherExc)
          (fun _ => PollResp.statusInProgress) 50) 50).1.urls ∧
    "https://example.com/team".toList ∈
      (discover_urls "https://example.com".toList
        (fun w => crawl false Breaker.init 0 w (fun _ => AttemptOutcome.exc ExcKind.otherExc)
          (fun _ => PollResp.statusInProgress) 50) 50).1.urls ∧
    "https://example.com/services".toList ∈
      (discover_urls "https://example.com".toList
        (fun w => crawl false Breaker.init 0 w (fun _ => AttemptOutcome.exc ExcKind.otherExc)
          (fun _ => PollResp.statusInProgress) 50) 50).1.urls ∧
    (discover_urls "https://example.com".toList
        (fun w => crawl false Breaker.init 0 w (fun _ => AttemptOutcome.exc ExcKind.otherExc)
          (fun _ => PollResp.statusInProgress) 50) 50).2 = 0 :=
  ⟨rfl, rfl, by decide, by decide, by decide, rfl⟩

/-! ## C6: the 402 fallback fires, but the method marker is dropped -/

/-- Counterexample to C6 as stated: a batch of the single simple URL
`https://example.com` whose primary result is an `http_402` error is
re-fetched through the fallback (whose own dict carries
`method: "fallback_scraping"`), yet the record `scrape_urls` returns for it
has `status: "success"` and no `method` key at all -- the processing loop
copies only url/status/content/length/format. -/
theorem claim_C6_counterexample :
    (scrape_urls ["https://example.com".toList]
        (Except.ok [{ status := "error", reason := some "http_402",
                      humanReadableError := some "API credits exhausted" }])
        (fun u => { status := "success", url := some u, content := some [],
                    method := some "fallback_scraping" })
        "markdown").map (fun o => o.results.map (fun r => (r.status, r.method)))
      = Except.ok [("success", (none : Option String))] := by
  rfl

/-- C6 (amended): when every primary result failed with `http_402`,
`scrape_urls` re-routes exactly the simple URLs through the fallback fetch
(each non-simple URL keeps its primary result); a successfully
fallback-scraped URL is returned with `status: "success"` but the
`method: "fallback_scraping"` marker exists only on the intermediate
fallback dict -- the processing loop drops it, so the returned record has
no `method` key; and whenever some primary result succeeded (so the
all-402 test fails) the fallback oracle is never consulted. -/
theorem claim_C6 :
    (∀ (fallback : List Char → ScrapeRec) (urls : List (List Char)) (primary : List ScrapeRec),
      primary.length = urls.length →
      buildFallback fallback urls primary
        = Except.ok (List.zipWith
            (fun u r => if is_simple_scrape_url u then fallback u else r) urls primary)) ∧
    (∀ (fmt : String) (u : List Char) (r : ScrapeRec), r.status = "success" →
      (processOne fmt u r).map (fun p => (p.status, p.method))
        = Except.ok ("success", (none : Option String))) ∧
    (∀ (urls : List (List Char)) (primary : List ScrapeRec)
        (f1 f2 : List Char → ScrapeRec) (fmt : String),
      all_failed_payment_check primary = false →
      scrape_urls urls (Except.ok primary) f1 fmt
        = scrape_urls urls (Except.ok primary) f2 fmt) := by
  refine ⟨?_, ?_, ?_⟩
  · intro fallback urls
    induction urls with
    | nil => intro primary _; rfl
    | cons u us ih =>
      intro primary h
      cases primary with
      | nil => exact absurd h (by simp)
      | cons r rs =>
        have hlen : rs.length = us.length := by simpa using h
        by_cases hs : is_simple_scrape_url u = true
        · simp [buildFallback, hs, ih rs hlen]
          rfl
        · simp only [Bool.not_eq_true] at hs
          simp [buildFallback, hs, ih rs hlen]
          rfl
  · intro fmt u r h
    simp [processOne, h, Except.map]
  · intro urls primary f1 f2 fmt h
    by_cases hu : urls = []
    · simp [scrape_urls, hu]
    · simp [scrape_urls, hu, h]

/-- Witness for C6: a two-URL all-402 batch routes the simple
`https://example.com` to the fallback and keeps the primary error for the
non-simple Wikipedia URL; processing a successful fallback record yields
`("success", none)`; and with a successful primary result the two
`scrape_urls` runs with different fallback oracles agree. -/
theorem claim_C6_witness :
    (buildFallback
        (fun u => { status := "success", url := some u, content := some [],
                    method := some "fallback_scraping" })
        ["https://example.com".toList, "https://en.wikipedia.org/wiki/A".toList]
        [{ status := "error", reason := some "http_402" },
         { status := "error", reason := some "http_402" }]
      = Except.ok
          [{ status := "success", url := some "https://example.com".toList,
             content := some [], method := some "fallback_scraping" },
           { status := "error", reason := some "http_402" }]) ∧
    ((processOne "markdown" "https://example.com".toList
        { status := "success", url := some "https://example.com".toList, content := some [],
          method := some "fallback_scraping" }).map (fun p => (p.status, p.method))
      = Except.ok ("success", (none : Option String))) ∧
    (scrape_urls ["https://example.com".toList]
        (Except.ok [{ status := "success", url := some "https://example.com".toList,
                      content := some [] }])
        (fun u => { status := "success", url := some u, content := some [],
                    method := some "fallback_scraping" }) "markdown"
      = scrape_urls ["https://example.com".toList]
        (Except.ok [{ status := "success", url := some "https://example.com".toList,
                      content := some [] }])
        (fun _ => { status := "error" }) "markdown") := by
  refine ⟨?_, ?_, ?_⟩
  · rw [claim_C6.1
      (fun u => { status := "success", url := some u, content := some [],
                  method := some "fallback_scraping" })
      ["https://example.com".toList, "https://en.wikipedia.org/wiki/A".toList]
      [{ status := "error", reason := some "http_402" },
       { status := "error", reason := some "http_402" }] (by decide)]
    rfl
  · exact claim_C6.2.1 "markdown" "https://example.com".toList
      { status := "success", url := some "https://example.com".toList, content := some [],
        method := some "fallback_scraping" } rfl
  · exact claim_C6.2.2 ["https://example.com".toList]
      [{ status := "success", url := some "https://example.com".toList, content := some [] }]
      (fun u => { status := "success", url := some u, content := some [],
                  method := some "fallback_scraping" })
      (fun _ => { status := "error" }) "markdown" (by decide)
